import Mathlib

/-!
Verification of the pika call-transport code (`bots/pi-bridge.py` and
`tools/agent-pty/agent-pty-client.py`) against its specification.

Byte strings are modelled as `List Nat`, streams and session identifiers as
`String`, sequence numbers as `Nat` after the bridge's own `int(...)`
validation (the wire fields themselves are `Int`), and wall-clock times as
`Rat` (the code compares `time.time()` differences against a timeout).
Base64/hex transport encodings are bijections and are modelled as the
identity on the decoded bytes.
-/

/-- Byte strings (`bytes` in the Python source). -/
abbrev Bytes := List Nat

namespace PiBridge

/-! ## Association-list utilities shared by the embeddings

Python `dict`s keyed by integers are embedded as association lists; the
bridge only ever reads them through key lookup, key-membership tests,
`len`, and key removal, so the list order is unobservable. -/

/-- `d.get(k)` on an integer-keyed dict. -/
def lookupSeq : List (Nat × Bytes) → Nat → Option Bytes
  | [], _ => none
  | (k, v) :: rest, s => if k = s then some v else lookupSeq rest s

/-- `d.pop(k)` / `del d[k]` on an integer-keyed dict (key removal). -/
def eraseSeq (l : List (Nat × Bytes)) (k : Nat) : List (Nat × Bytes) :=
  l.filter (fun p => p.1 ≠ k)

/-- `k in d` on an integer-keyed dict. -/
def hasKeySeq (l : List (Nat × Bytes)) (k : Nat) : Prop := k ∈ l.map Prod.fst

instance (l : List (Nat × Bytes)) (k : Nat) : Decidable (hasKeySeq l k) := by
  unfold hasKeySeq; infer_instance

/-! ## Frame Codec (`send_rpc_framed_payload`, lines 560-584)

`send_rpc_framed_payload` computes
`frag_count = max(1, (len(payload) + max_rpc_fragment_bytes - 1) // max_rpc_fragment_bytes)`
and slices `payload[start:end]` with `start = frag_index * max`,
`end = start + max`. -/

/-- Fragment count used by `send_rpc_framed_payload` (line 570). -/
def fragCount (payload : Bytes) (maxBytes : Nat) : Nat :=
  max 1 ((payload.length + maxBytes - 1) / maxBytes)

/-- The fragment `payload[start:end]` sent at `frag_index = i` (lines 572-574). -/
def fragSlice (payload : Bytes) (maxBytes i : Nat) : Bytes :=
  (payload.drop (i * maxBytes)).take maxBytes

/-- The ordered fragment sequence produced by the sender loop (lines 571-584). -/
def segmentPayload (payload : Bytes) (maxBytes : Nat) : List Bytes :=
  (List.range (fragCount payload maxBytes)).map (fragSlice payload maxBytes)

/-- The receiver's assembly loop (`handle_rpc_envelope`, lines 819-824): read
`parts[idx]` for `idx` in `range(frag_count)`, failing if any index is
missing. Returns the fragment list in index order. -/
def collectParts (parts : List (Nat × Bytes)) : Nat → Option (List Bytes)
  | 0 => some []
  | n + 1 =>
    match collectParts parts n, lookupSeq parts n with
    | some acc, some b => some (acc ++ [b])
    | _, _ => none

/-- `b"".join(assembled)` over the collected fragments (line 829). -/
def reassembleFragments (parts : List (Nat × Bytes)) (fragTotal : Nat) : Option Bytes :=
  (collectParts parts fragTotal).map List.flatten

/-! ## RPC Reassembly Engine (`pi-bridge.py`, lines 26-70, 540-547, 682-844) -/

/-- `RPC_STREAMS` (line 28). -/
def RPC_STREAMS : List String := ["rpc_event", "rpc_response", "rpc_request", "control"]

/-- `FRAMED_PROTOCOL_VERSION` (line 27). -/
def FRAMED_PROTOCOL_VERSION : Int := 1

/-- `max_rpc_reorder_window` (line 70). -/
def max_rpc_reorder_window : Nat := 4096

/-- A decoded RPC envelope dict, as consumed by `parse_rpc_envelope`
(lines 682-710).  The integer wire fields are `Int` prior to validation;
`payload_b64` is modelled by the decoded bytes (base64 is a bijection). -/
structure Envelope where
  v : Int
  session_id : String
  stream : String
  seq : Int
  frag_index : Int
  frag_count : Int
  payload : Bytes
deriving DecidableEq, Repr

/-- An in-flight fragment set `{"frag_count": ..., "parts": {...}}`
(`handle_rpc_envelope`, line 802). -/
structure FragEntry where
  frag_count : Nat
  parts : List (Nat × Bytes)
deriving DecidableEq, Repr

/-- The module-level reassembly state of the bridge (lines 44-52).
Dicts that are initialised with a default for every recognised stream and
read via `.get(stream, default)` / `.setdefault(stream, default)` are
modelled as total functions. -/
structure RpcState where
  rpc_call_id : Option String
  rpc_proc_live : Bool
  rpc_session_id : Option String
  rpc_in_expected_seq : String → Nat
  rpc_in_pending : String → List (Nat × Bytes)
  rpc_in_fragments : String × Nat → Option FragEntry
  rpc_seen : List (String × String × Nat)

attribute [ext] RpcState

/-- `reset_rpc_session_state` (lines 540-547); the outbound side
(`rpc_out_seq`) is not part of the receive path and is omitted. -/
def reset_rpc_session_state (session_id : String) (s : RpcState) : RpcState :=
  { s with
    rpc_session_id := some session_id
    rpc_in_expected_seq := fun _ => 0
    rpc_in_pending := fun _ => []
    rpc_in_fragments := fun _ => none
    rpc_seen := [] }

/-- `parse_rpc_envelope` (lines 682-710).  Returns
`(session_id, stream, seq, frag_index, frag_count, raw)` after validation. -/
def parse_rpc_envelope (p : Envelope) :
    Option (String × String × Nat × Nat × Nat × Bytes) :=
  if p.v ≠ FRAMED_PROTOCOL_VERSION then none
  else if p.session_id = "" then none
  else if p.stream ∉ RPC_STREAMS then none
  else if p.seq < 0 ∨ p.frag_count ≤ 0 ∨ p.frag_index < 0 ∨ p.frag_count ≤ p.frag_index then
    none
  else some (p.session_id, p.stream, p.seq.toNat, p.frag_index.toNat, p.frag_count.toNat,
      p.payload)

/-- `set.add` on `rpc_seen`, modelled on a duplicate-free list. -/
def insertSeen (k : String × String × Nat) (seen : List (String × String × Nat)) :
    List (String × String × Nat) :=
  if k ∈ seen then seen else k :: seen

/-- `prune_rpc_seen` (lines 713-729). -/
def prune_rpc_seen (session_id stream : String) (next_expected_seq : Nat)
    (seen : List (String × String × Nat)) : List (String × String × Nat) :=
  if seen.length < max_rpc_reorder_window * 2 then seen
  else if next_expected_seq ≤ max_rpc_reorder_window then seen
  else
    let cutoff := next_expected_seq - max_rpc_reorder_window
    seen.filter fun key => ¬(key.1 = session_id ∧ key.2.1 = stream ∧ key.2.2 < cutoff)

/-- The in-order drain loop of `handle_rpc_envelope` (lines 832-839):
`while True: payload = stream_pending.pop(drain_expected, None); ...`.
Each successful iteration removes the popped key, so `fuel := pending.length`
upper-bounds the iteration count; when fuel runs out the dict is empty and
the next lookup fails, so the fuelled form agrees with the `while` loop. -/
def drainAux : Nat → List (Nat × Bytes) → Nat → List (Nat × Bytes) × Nat × List (Nat × Bytes)
  | 0, pending, expected => ([], expected, pending)
  | fuel + 1, pending, expected =>
    match lookupSeq pending expected with
    | none => ([], expected, pending)
    | some payload =>
      let rec' := drainAux fuel (eraseSeq pending expected) (expected + 1)
      ((expected, payload) :: rec'.1, rec'.2)

/-- Drain `pending_complete` starting at `drain_expected`; returns the
`ready` list, the advanced expected sequence, and the remaining pending map. -/
def drainPending (pending : List (Nat × Bytes)) (expected : Nat) :
    List (Nat × Bytes) × Nat × List (Nat × Bytes) :=
  drainAux pending.length pending expected

/-- `handle_rpc_envelope` from the fragment-buffering step onward
(lines 799-841), entered with a validated envelope whose session either just
bound or matched.  `entry` is the current fragment set for `(stream, seq)`
after the `None` / `frag_count`-mismatch resolution, with the
`frag_index in parts` duplicate test already passed. -/
def stepWithEntry (session_id stream : String) (seq frag_index frag_count : Nat)
    (frag_payload : Bytes) (entry : FragEntry) (s : RpcState) :
    RpcState × List (Nat × Bytes) :=
  let parts' := entry.parts ++ [(frag_index, frag_payload)]
  let s1 := { s with
    rpc_in_fragments :=
      Function.update s.rpc_in_fragments (stream, seq) (some ⟨frag_count, parts'⟩) }
  if parts'.length < frag_count then (s1, [])
  else
    match collectParts parts' frag_count with
    | none => (s1, [])
    | some assembled =>
      let s2 := { s1 with
        rpc_in_fragments := Function.update s1.rpc_in_fragments (stream, seq) none }
      let stream_pending := s2.rpc_in_pending stream
      let stream_pending' :=
        if hasKeySeq stream_pending seq then stream_pending
        else stream_pending ++ [(seq, assembled.flatten)]
      let drained := drainPending stream_pending' (s2.rpc_in_expected_seq stream)
      let ready := drained.1
      let seen' := ready.foldl (fun acc r => insertSeen (session_id, stream, r.1) acc)
        s2.rpc_seen
      let s3 := { s2 with
        rpc_in_pending := Function.update s2.rpc_in_pending stream drained.2.2
        rpc_in_expected_seq := Function.update s2.rpc_in_expected_seq stream drained.2.1
        rpc_seen := prune_rpc_seen session_id stream drained.2.1 seen' }
      (s3, ready)

/-- The locked body of `handle_rpc_envelope` after the call/session guards
(lines 788-841): duplicate suppression, window check, fragment buffering,
assembly and drain. -/
def handle_rpc_core (session_id stream : String) (seq frag_index frag_count : Nat)
    (frag_payload : Bytes) (s : RpcState) : RpcState × List (Nat × Bytes) :=
  let dedupe_key := (session_id, stream, seq)
  if dedupe_key ∈ s.rpc_seen then (s, [])
  else
    let expected := s.rpc_in_expected_seq stream
    if seq < expected then ({ s with rpc_seen := insertSeen dedupe_key s.rpc_seen }, [])
    else if max_rpc_reorder_window < seq - expected then (s, [])
    else
      match s.rpc_in_fragments (stream, seq) with
      | none =>
        stepWithEntry session_id stream seq frag_index frag_count frag_payload
          ⟨frag_count, []⟩ s
      | some entry =>
        if entry.frag_count ≠ frag_count then
          ({ s with
              rpc_in_fragments := Function.update s.rpc_in_fragments (stream, seq) none },
            [])
        else if frag_index ∈ entry.parts.map Prod.fst then (s, [])
        else stepWithEntry session_id stream seq frag_index frag_count frag_payload entry s

/-- Truthiness of the Python `rpc_session_id` (`if rpc_session_id and ...`,
line 782): `None` and the empty string are falsy. -/
def optTruthy : Option String → Bool
  | none => false
  | some x => x ≠ ""

/-- `handle_rpc_envelope` (lines 772-844).  The second component collects the
`(seq, payload)` pairs handed to `handle_complete_rpc_frame` — the delivery
of assembled frames to the application layer, in list order. -/
def handle_rpc_envelope (call_id : String) (envelope : Envelope) (s : RpcState) :
    RpcState × List (Nat × Bytes) :=
  match parse_rpc_envelope envelope with
  | none => (s, [])
  | some (session_id, stream, seq, frag_index, frag_count, frag_payload) =>
    if s.rpc_call_id ≠ some call_id ∨ s.rpc_proc_live = false then (s, [])
    else if optTruthy s.rpc_session_id ∧ s.rpc_session_id ≠ some session_id then (s, [])
    else
      let s0 := if s.rpc_session_id = none then reset_rpc_session_state session_id s else s
      handle_rpc_core session_id stream seq frag_index frag_count frag_payload s0

/-- Feed a sequence of envelopes through `handle_rpc_envelope`, concatenating
the delivered frames in order (the bridge's single-threaded stdin loop calls
`handle_rpc_call_data` once per inbound `call_data` line). -/
def processAll (call_id : String) (envelopes : List Envelope) (s : RpcState) :
    RpcState × List (Nat × Bytes) :=
  envelopes.foldl
    (fun acc e =>
      let step := handle_rpc_envelope call_id e acc.1
      (step.1, acc.2 ++ step.2))
    (s, [])

/-- The reassembly state established by `start_pi_rpc_call` (lines 646-653):
the call is bound, the child process is live, and
`reset_rpc_session_state(call_id)` has run.  `sid` is the bound session
identifier. -/
def initRpcState (cid sid : String) : RpcState :=
  reset_rpc_session_state sid
    { rpc_call_id := some cid
      rpc_proc_live := true
      rpc_session_id := some sid
      rpc_in_expected_seq := fun _ => 0
      rpc_in_pending := fun _ => []
      rpc_in_fragments := fun _ => none
      rpc_seen := [] }

/-! ## Reassembly scenarios

A complete, valid envelope set for sequences `0..N-1` on one stream of one
session is described by a fragment-count map `fc` and a fragment-payload map
`fp`; the envelope for fragment `i` of sequence `s` is `scEnv sid st fc fp s i`
and the assembled payload of sequence `s` is `asmPayload fc fp s`. -/

/-- The assembled frame for sequence `s`: its fragments concatenated in
index order. -/
def asmPayload (fc : Nat → Nat) (fp : Nat → Nat → Bytes) (s : Nat) : Bytes :=
  ((List.range (fc s)).map (fp s)).flatten

/-- The wire envelope carrying fragment `i` of sequence `s`. -/
def scEnv (sid st : String) (fc : Nat → Nat) (fp : Nat → Nat → Bytes)
    (s i : Nat) : Envelope :=
  { v := FRAMED_PROTOCOL_VERSION
    session_id := sid
    stream := st
    seq := s
    frag_index := i
    frag_count := fc s
    payload := fp s i }

/-- `L` is an arrival order of the complete envelope set for sequences
`0..N-1`: every arriving envelope is from the set (duplicates allowed, in any
order) and every envelope of the set arrives at least once. -/
def completeArrival (sid st : String) (fc : Nat → Nat) (fp : Nat → Nat → Bytes)
    (N : Nat) (L : List Envelope) : Prop :=
  (∀ e ∈ L, ∃ s i, s < N ∧ i < fc s ∧ e = scEnv sid st fc fp s i) ∧
    (∀ s i, s < N → i < fc s → scEnv sid st fc fp s i ∈ L)

/-- Claim C1 as stated: for EVERY `N` and every arrival order (any
permutation, arbitrary duplication) of a complete valid envelope set on one
stream of the bound session, the engine delivers each assembled payload
exactly once, in order `0..N-1`. -/
def ExactlyOnceInOrderClaim : Prop :=
  ∀ (cid sid st : String) (N : Nat) (fc : Nat → Nat) (fp : Nat → Nat → Bytes)
    (L : List Envelope),
    sid ≠ "" → st ∈ RPC_STREAMS → (∀ s, s < N → 1 ≤ fc s) →
    completeArrival sid st fc fp N L →
    (processAll cid L (initRpcState cid sid)).2 =
      (List.range N).map fun s => (s, asmPayload fc fp s)

/-- Claim C2 as stated, over states the engine actually reaches from its
initial state: a triple newly present in `rpc_seen` after one
`handle_rpc_envelope` call was delivered to the application layer by that
very call. -/
def SeenOnlyOnDeliveryClaim : Prop :=
  ∀ (cid sid : String) (L : List Envelope) (e : Envelope)
    (key : String × String × Nat),
    key ∈ (handle_rpc_envelope cid e (processAll cid L (initRpcState cid sid)).1).1.rpc_seen →
    key ∉ (processAll cid L (initRpcState cid sid)).1.rpc_seen →
    ∃ b, (key.2.2, b) ∈
      (handle_rpc_envelope cid e (processAll cid L (initRpcState cid sid)).1).2

/-- Per-sequence invariant state reached by delivering sequences
`0..expected-1` of one stream in order: nothing pending, nothing in flight. -/
def inorderState (cid sid st : String) (expected : Nat)
    (seen : List (String × String × Nat)) : RpcState :=
  { rpc_call_id := some cid
    rpc_proc_live := true
    rpc_session_id := some sid
    rpc_in_expected_seq := fun s' => if s' = st then expected else 0
    rpc_in_pending := fun _ => []
    rpc_in_fragments := fun _ => none
    rpc_seen := seen }

/-- `[(sid, st, lo+n-1), ..., (sid, st, lo)]`: the `rpc_seen` contents after
in-order deliveries, newest first (as `insertSeen` builds them). -/
def seenDesc (sid st : String) (lo : Nat) : Nat → List (String × String × Nat)
  | 0 => []
  | n + 1 => (sid, st, lo + n) :: seenDesc sid st lo n

/-- `rpc_seen` after `n ≤ 2·window` in-order single-fragment deliveries:
the prune at the `2·window` threshold discards the older half. -/
def inorderSeen (sid st : String) (n : Nat) : List (String × String × Nat) :=
  if n < 2 * max_rpc_reorder_window then seenDesc sid st 0 n
  else seenDesc sid st max_rpc_reorder_window max_rpc_reorder_window

/-- Induction invariant for the exactly-once/in-order proof: the engine's
state after processing the arrival list `P` of envelopes drawn from the
complete set for `0..N-1` on stream `st` of session `sid`, with cumulative
deliveries `out`.  `expected` abbreviates `s.rpc_in_expected_seq st`. -/
structure ReassemblyInv (cid sid st : String) (N : Nat) (fc : Nat → Nat)
    (fp : Nat → Nat → Bytes) (P : List Envelope) (s : RpcState)
    (out : List (Nat × Bytes)) : Prop where
  hcall : s.rpc_call_id = some cid
  hproc : s.rpc_proc_live = true
  hsess : s.rpc_session_id = some sid
  hEle : s.rpc_in_expected_seq st ≤ N
  hout : out = (List.range (s.rpc_in_expected_seq st)).map fun j => (j, asmPayload fc fp j)
  hpend : ∀ p ∈ s.rpc_in_pending st,
    s.rpc_in_expected_seq st < p.1 ∧ p.1 < N ∧ p.2 = asmPayload fc fp p.1
  hpendnd : ((s.rpc_in_pending st).map Prod.fst).Nodup
  hfrag : ∀ k e, s.rpc_in_fragments (st, k) = some e →
    k < N ∧ e.frag_count = fc k ∧ (e.parts.map Prod.fst).Nodup ∧
      (∀ q ∈ e.parts, q.1 < fc k ∧ q.2 = fp k q.1) ∧ e.parts.length < fc k
  hseen : ∀ x, x ∈ s.rpc_seen ↔ ∃ j, j < s.rpc_in_expected_seq st ∧ x = (sid, st, j)
  hseennd : s.rpc_seen.Nodup
  htrack : ∀ k, s.rpc_in_expected_seq st ≤ k → k < N →
    k ∉ (s.rpc_in_pending st).map Prod.fst →
    ∀ i, i < fc k → scEnv sid st fc fp k i ∈ P →
    ∃ e, s.rpc_in_fragments (st, k) = some e ∧ i ∈ e.parts.map Prod.fst

/-- Fragment counts for the counterexample traces: one fragment per frame. -/
def cexFc : Nat → Nat := fun _ => 1

/-- Fragment payloads for the counterexample traces: empty frames. -/
def cexFp : Nat → Nat → Bytes := fun _ _ => []

/-- Single-fragment counterexample envelope for sequence `k`. -/
def cexEnv (k : Nat) : Envelope := scEnv "s" "rpc_event" cexFc cexFp k 0

/-- Arrival order refuting C1 at `N = 4098`: the envelope for sequence 4097
arrives first — `seq − expected_seq = 4097` exceeds the reorder window, so it
is dropped and (arriving only once) is never delivered. -/
def cexC1Order : List Envelope := cexEnv 4097 :: (List.range 4097).map cexEnv

/-- Trace refuting C2: `2·window` in-order deliveries, after which the prune
inside the final delivery has evicted `("s", "rpc_event", 0)` from
`rpc_seen`; a then-received stale duplicate of sequence 0 re-adds it without
any delivery. -/
def cexC2Trace : List Envelope := (List.range 8192).map cexEnv

/-! ## Replay Engine (`replay_loop`, lines 386-428)

The loop body is driven by the thread scheduler: before each frame it reads
`active_call_id` under the lock (a supersede check) and sleeps through
`replay_sleep`, which returns `False` when `active_replay_stop` fires.  These
externally-decided outcomes are modelled by an oracle giving the outcome at
each frame index; an exception inside the `try` block behaves like an early
break for the emissions that follow, and the `finally` block runs in every
case. -/

/-- Outcome of the supersede check and `replay_sleep` before frame `idx`. -/
inductive ReplayCtl where
  | run
  | superseded
  | stopSignal
deriving DecidableEq, Repr

/-- A message emitted by the replay loop to the daemon. -/
inductive ReplayMsg where
  | stdoutMsg (seq : Nat) (data : Bytes)
  | exitMsg (code : Int)
  | endCall (reason : String)
deriving DecidableEq, Repr

/-- The `for delay_sec, chunk in REPLAY_FRAMES` body (lines 406-420):
break on supersede or stop, otherwise emit a sequenced `stdout` message. -/
def replayFramesLoop : List (Rat × Bytes) → Nat → (Nat → ReplayCtl) → List ReplayMsg
  | [], _, _ => []
  | (_, chunk) :: rest, idx, ctl =>
    match ctl idx with
    | .superseded => []
    | .stopSignal => []
    | .run => .stdoutMsg idx chunk :: replayFramesLoop rest (idx + 1) ctl

/-- All daemon messages emitted by one run of `replay_loop` (lines 397-428):
the (possibly interrupted) scripted stream, then unconditionally — via
`finally` — the terminal `exit` payload and the `end_call` command.
`initialStop` is true when `replay_sleep` on the initial delay already
observed the stop signal (line 404), in which case no frame is played. -/
def replay_loop_msgs (frames : List (Rat × Bytes)) (ctl : Nat → ReplayCtl)
    (initialStop : Bool) : List ReplayMsg :=
  (if initialStop then [] else replayFramesLoop frames 0 ctl) ++
    [.exitMsg 0, .endCall "replay_done"]

/-! ## Session Controller dispatch (`main`, lines 861-922, and
`handle_call_data`, lines 502-537) -/

/-- `call_mode` (lines 55-57). -/
inductive CallMode where
  | pty
  | rpc
deriving DecidableEq, Repr

/-- Commands the bridge writes back to the daemon in the invite path. -/
inductive InviteReply where
  | accept_call (call_id : String)
  | reject_call (call_id reason : String)
deriving DecidableEq, Repr

/-- The bridge-side call identities read under the locks by the
`call_invite_received` handler: `active_call_id` (line 36, PTY mode) and
`rpc_call_id` (line 44, RPC mode). -/
structure BridgeCallIds where
  active_call_id : Option String
  rpc_call_id : Option String
deriving DecidableEq, Repr

/-- The `call_invite_received` arm of `main` (lines 877-891): the busy test
reads the mode-appropriate call identity; a busy bridge replies
`reject_call` with reason `"busy"` and mutates nothing, otherwise it replies
`accept_call`. -/
def handle_call_invite (mode : CallMode) (ids : BridgeCallIds) (call_id : String) :
    BridgeCallIds × InviteReply :=
  let busy : Bool :=
    match mode with
    | .pty => ids.active_call_id ≠ none
    | .rpc => ids.rpc_call_id ≠ none
  if busy then (ids, .reject_call call_id "busy")
  else (ids, .accept_call call_id)

/-- The call identity whose presence the invite handler tests: the mode of
the bridge decides which session manager's call binding counts as "a call is
currently active". -/
def activeCallFor (mode : CallMode) (ids : BridgeCallIds) : Option String :=
  match mode with
  | .pty => ids.active_call_id
  | .rpc => ids.rpc_call_id

/-- A decoded terminal mini-protocol payload (`{t, d?, cols?, rows?}`),
with `d` already base64-decoded (missing / empty `d` is `[]`, matching
`str(payload.get("d", ""))` being falsy). -/
structure TermPayload where
  t : String
  d : Bytes
  cols : Int
  rows : Int
deriving DecidableEq, Repr

/-- An inbound `call_data` daemon event after `decode_call_payload`
(lines 189-200): `payload = none` when the hex/JSON decode failed. -/
structure CallDataMsg where
  call_id : String
  payload : Option TermPayload
deriving DecidableEq, Repr

/-- PTY-mode mutable state read/written by `handle_call_data`:
`active_call_id`, `active_pty_fd` and the `active_replay_peer_ready` event
(lines 36-42). -/
structure PtyCallState where
  active_call_id : Option String
  active_pty_fd : Option Nat
  peer_ready : Bool
deriving DecidableEq, Repr

/-- Externally visible effects of `handle_call_data`. -/
inductive PtyEffect where
  | endCallCmd (call_id reason : String)
  | writeFd (fd : Nat) (data : Bytes)
  | resizeFd (fd : Nat) (cols rows : Int)
deriving DecidableEq, Repr

/-- `handle_call_data` (lines 502-537). -/
def handle_call_data (st : PtyCallState) (msg : CallDataMsg) :
    PtyCallState × List PtyEffect :=
  let st1 := if st.active_call_id = some msg.call_id then { st with peer_ready := true }
    else st
  match msg.payload with
  | none => (st1, [])
  | some p =>
    if p.t = "exit" then (st1, [.endCallCmd msg.call_id "peer_exit"])
    else if st1.active_call_id ≠ some msg.call_id then (st1, [])
    else
      match st1.active_pty_fd with
      | none => (st1, [])
      | some fd =>
        if p.t = "stdin" then
          if p.d = [] then (st1, []) else (st1, [.writeFd fd p.d])
        else if p.t = "resize" then
          if 0 < p.cols ∧ 0 < p.rows then (st1, [.resizeFd fd p.cols p.rows])
          else (st1, [])
        else (st1, [])

end PiBridge

namespace AgentPty

/-! ## Client Reorder/Playback Buffer
(`agent-pty-client.py`, `StdoutReorderBuffer`, lines 229-275)

Sequence numbers on this side are raw JSON integers (`Int`); `s_field = none`
models a missing or non-integer `"s"` field (`isinstance(seq_raw, int)`
fails).  `d` carries the decoded bytes of `decode_stdout_data`.  Wall-clock
`time_now()` readings are passed in as `Rat`. -/

/-- A decoded `stdout` payload as seen by `StdoutReorderBuffer.push`. -/
structure StdoutPayload where
  s_field : Option Int
  d : Bytes
deriving DecidableEq, Repr

/-- The mutable fields of `StdoutReorderBuffer` (lines 232-237). -/
structure ReorderBuffer where
  next_seq : Option Int
  pending : List (Int × Bytes)
  gap_since : Option Rat
  allow_gap_recovery : Bool
  gap_timeout_sec : Rat
deriving DecidableEq, Repr

/-- `StdoutReorderBuffer.__init__` (lines 232-237). -/
def mkBuffer (allow_gap_recovery : Bool) (gap_timeout_sec : Rat) : ReorderBuffer :=
  { next_seq := none
    pending := []
    gap_since := none
    allow_gap_recovery := allow_gap_recovery
    gap_timeout_sec := gap_timeout_sec }

/-- `self.pending[seq] = data` (line 249): insert-or-overwrite. -/
def insertPend (l : List (Int × Bytes)) (k : Int) (v : Bytes) : List (Int × Bytes) :=
  if k ∈ l.map Prod.fst then l.map (fun p => if p.1 = k then (k, v) else p)
  else l ++ [(k, v)]

/-- Dict lookup on the `Int`-keyed pending map. -/
def lookupPend : List (Int × Bytes) → Int → Option Bytes
  | [], _ => none
  | (k, v) :: rest, s => if k = s then some v else lookupPend rest s

/-- Key removal on the `Int`-keyed pending map. -/
def erasePend (l : List (Int × Bytes)) (k : Int) : List (Int × Bytes) :=
  l.filter (fun p => p.1 ≠ k)

/-- `min(self.pending)` (lines 252, 269): the least key; 0 on an empty dict
(unreachable — the code only evaluates it when `pending` is non-empty). -/
def minPendKey : List (Int × Bytes) → Int
  | [] => 0
  | (k, _) :: rest => rest.foldl (fun m p => min m p.1) k

/-- The `while self.next_seq in self.pending` emission loop (lines 255-258
and 271-273), fuelled by the pending size exactly as `drainAux`. -/
def emitAux : Nat → List (Int × Bytes) → Int → List Bytes × Int × List (Int × Bytes)
  | 0, pending, nxt => ([], nxt, pending)
  | fuel + 1, pending, nxt =>
    match lookupPend pending nxt with
    | none => ([], nxt, pending)
    | some data =>
      let rest := emitAux fuel (erasePend pending nxt) (nxt + 1)
      (data :: rest.1, rest.2)

/-- Pop-and-emit the contiguous run starting at `nxt`. -/
def emitRun (pending : List (Int × Bytes)) (nxt : Int) :
    List Bytes × Int × List (Int × Bytes) :=
  emitAux pending.length pending nxt

/-- `StdoutReorderBuffer.push` (lines 239-275), with `now` the value
`time_now()` returns during this call.  Returns the updated buffer and the
list of emitted chunks. -/
def push (now : Rat) (b : ReorderBuffer) (payload : StdoutPayload) :
    ReorderBuffer × List Bytes :=
  match payload.s_field with
  | none => (b, if payload.d = [] then [] else [payload.d])
  | some seq =>
    if payload.d = [] then (b, [])
    else
      let pending1 := insertPend b.pending seq payload.d
      let ns : Int :=
        match b.next_seq with
        | none => minPendKey pending1
        | some n => n
      let fst_run := emitRun pending1 ns
      let out1 := fst_run.1
      let ns1 := fst_run.2.1
      let pending2 := fst_run.2.2
      -- each iteration of the first while loop sets `gap_since = None`
      let gap1 := if out1 = [] then b.gap_since else none
      if pending2 = [] then
        ({ b with next_seq := some ns1, pending := pending2, gap_since := gap1 }, out1)
      else
        let gap2 : Rat :=
          match gap1 with
          | none => now
          | some g => g
        if b.allow_gap_recovery ∧ b.gap_timeout_sec < now - gap2 then
          let snd_run := emitRun pending2 (minPendKey pending2)
          let b' := { b with
            next_seq := some snd_run.2.1
            pending := snd_run.2.2
            gap_since := none }
          (b', out1 ++ snd_run.1)
        else
          ({ b with next_seq := some ns1, pending := pending2, gap_since := some gap2 },
            out1)

/-- Push a timed sequence of payloads, collecting each call's emissions. -/
def pushTrace (b : ReorderBuffer) : List (Rat × StdoutPayload) →
    ReorderBuffer × List (List Bytes)
  | [] => (b, [])
  | (now, payload) :: rest =>
    let step := push now b payload
    let tail := pushTrace step.1 rest
    (tail.1, step.2 :: tail.2)

/-! ## Capture/Fidelity Harness (`run_test_capture_loop`, lines 462-509)

The comparison of the captured byte stream against the expected fixture,
with its bounded trim search and its process exit code. -/

/-- First index at which `captured` and `expected` differ, or
`min(len(captured), len(expected))` when one is a prelude of the other
(lines 499-503). -/
def firstDiffAux : Bytes → Bytes → Nat → Nat
  | x :: xs, y :: ys, acc => if x ≠ y then acc else firstDiffAux xs ys (acc + 1)
  | _, _, acc => acc

/-- `next((idx for idx in range(min_len) if captured[idx] != expected[idx]), min_len)`. -/
def firstDiffIdx (captured expected : Bytes) : Nat :=
  firstDiffAux captured expected 0

/-- `captured == expected[prefix_drop:end]` for one trim candidate
(lines 478-483); the `end < prefix` combinations are skipped (`continue`). -/
def trimSliceEq (captured expected : Bytes) (p q : Nat) : Bool :=
  let e := expected.length - q
  if e < p then false
  else captured == (expected.take e).drop p

/-- First `n ≤ bound` satisfying `f`, scanning upward from `start`
(the `for ... in range(0, bound + 1)` loops with `break`). -/
def scanFirst (f : Nat → Bool) : Nat → Nat → Option Nat
  | _, 0 => none
  | start, fuel + 1 => if f start then some start else scanFirst f (start + 1) fuel

/-- First `n ≤ bound` satisfying `f`. -/
def findFirstLe (f : Nat → Bool) (bound : Nat) : Option Nat :=
  scanFirst f 0 (bound + 1)

/-- The nested trim search (lines 476-486): the outer loop scans the leading
drop, the inner loop the trailing drop; the first match in that order wins. -/
def findTrimMatch (captured expected : Bytes) (maxPre maxSuf : Nat) :
    Option (Nat × Nat) :=
  match findFirstLe
      (fun p => (findFirstLe (fun q => trimSliceEq captured expected p q) maxSuf).isSome)
      maxPre with
  | none => none
  | some p =>
    (findFirstLe (fun q => trimSliceEq captured expected p q) maxSuf).map fun q => (p, q)

/-- The verdict reported by the fixture comparison. -/
inductive CaptureOutcome where
  | matchedExact (byteLen : Nat)
  | matchedTrim (leadingDrop trailingDrop got expectedLen : Nat)
  | mismatch (got expectedLen firstDiff : Nat)
deriving DecidableEq, Repr

/-- The fixture comparison of `run_test_capture_loop` (lines 462-509), from
`if captured == expected` to the returned process exit code.
`maxPreDrop` / `maxSufDrop` are the already-clamped `max(0, ...)` tolerances
(lines 471-472). -/
def compareCapture (captured expected : Bytes) (maxPreDrop maxSufDrop : Nat) :
    CaptureOutcome × Nat :=
  if captured = expected then (.matchedExact captured.length, 0)
  else
    let maxPre := min maxPreDrop expected.length
    let maxSuf := min maxSufDrop expected.length
    match findTrimMatch captured expected maxPre maxSuf with
    | some pq =>
      (.matchedTrim pq.1 pq.2 captured.length expected.length, 0)
    | none =>
      if captured ≠ expected then
        (.mismatch captured.length expected.length (firstDiffIdx captured expected), 1)
      else (.matchedExact captured.length, 0)

/-- Claim C5 as stated: exact match exits 0; a one-byte leading drop within
the prelude-drop tolerance exits 0 reporting a leading drop of 1; a capture
differing under every tolerated trim exits 1 reporting the first-difference
index. -/
def FidelityClaim : Prop :=
  ∀ (captured expected : Bytes) (maxPreDrop maxSufDrop : Nat),
    (captured = expected →
      compareCapture captured expected maxPreDrop maxSufDrop =
        (.matchedExact captured.length, 0)) ∧
    (expected ≠ [] → captured = expected.drop 1 → 1 ≤ maxPreDrop →
      compareCapture captured expected maxPreDrop maxSufDrop =
        (.matchedTrim 1 0 captured.length expected.length, 0)) ∧
    ((∀ p, p ≤ min maxPreDrop expected.length → ∀ q, q ≤ min maxSufDrop expected.length →
        trimSliceEq captured expected p q = false) →
      compareCapture captured expected maxPreDrop maxSufDrop =
        (.mismatch captured.length expected.length (firstDiffIdx captured expected), 1))

end AgentPty

/-! # Theorems -/

namespace PiBridge

/-! ## Frame Codec: claim C3 -/

theorem flatten_segment_take (p : Bytes) (m : Nat) :
    ∀ n : Nat, ((List.range n).map (fragSlice p m)).flatten = p.take (n * m)
  | 0 => by simp
  | n + 1 => by
    rw [List.range_succ, List.map_append, List.flatten_append,
      flatten_segment_take p m n]
    simp only [List.map_cons, List.map_nil, List.flatten_cons, List.flatten_nil,
      List.append_nil, fragSlice]
    rw [Nat.succ_mul, List.take_add]

theorem length_le_fragCount_mul (p : Bytes) (m : Nat) (hm : 1 ≤ m) :
    p.length ≤ fragCount p m * m := by
  unfold fragCount
  have hq : p.length ≤ (p.length + m - 1) / m * m := by
    have hdm := Nat.div_add_mod (p.length + m - 1) m
    have hlt : (p.length + m - 1) % m < m := Nat.mod_lt _ (by omega)
    rw [Nat.mul_comm]
    generalize m * ((p.length + m - 1) / m) = t at hdm ⊢
    omega
  exact le_trans hq (Nat.mul_le_mul_right m (le_max_right 1 _))

theorem flatten_segmentPayload (p : Bytes) (m : Nat) (hm : 1 ≤ m) :
    (segmentPayload p m).flatten = p := by
  unfold segmentPayload
  rw [flatten_segment_take]
  exact List.take_of_length_le (length_le_fragCount_mul p m hm)

theorem lookupSeq_enumFrom (xs : List Bytes) :
    ∀ a j : Nat, lookupSeq (List.enumFrom a xs) (a + j) = xs[j]? := by
  induction xs with
  | nil => intro a j; simp [lookupSeq]
  | cons x xs ih =>
    intro a j
    cases j with
    | zero => simp [lookupSeq]
    | succ j' =>
      have harr : a + (j' + 1) = (a + 1) + j' := by omega
      show lookupSeq ((a, x) :: List.enumFrom (a + 1) xs) (a + (j' + 1)) =
        (x :: xs)[j' + 1]?
      rw [lookupSeq, if_neg (by omega : ¬ a = a + (j' + 1)), harr, ih (a + 1) j']
      simp

theorem collectParts_enum (xs : List Bytes) :
    ∀ n, n ≤ xs.length → collectParts xs.enum n = some (xs.take n) := by
  intro n
  induction n with
  | zero => intro _; simp [collectParts]
  | succ n ih =>
    intro hle
    have hn : n < xs.length := by omega
    have hlook : lookupSeq xs.enum n = xs[n]? := by
      have := lookupSeq_enumFrom xs 0 n
      simpa [List.enum] using this
    rw [collectParts, ih (by omega), hlook, List.getElem?_eq_getElem hn]
    simp

/-- Claim C3: reassembling (concatenating in fragment-index order) the
fragments produced by segmentation yields exactly the original payload for
every payload and every fragment size ≥ 1; a zero-length payload is
segmented into exactly one zero-length fragment. -/
theorem C3_codec_roundtrip (p : Bytes) (m : Nat) (hm : 1 ≤ m) :
    reassembleFragments ((segmentPayload p m).enum) (fragCount p m) = some p ∧
      (p = [] → segmentPayload p m = [[]]) := by
  constructor
  · have hlen : (segmentPayload p m).length = fragCount p m := by simp [segmentPayload]
    rw [reassembleFragments, collectParts_enum _ _ (le_of_eq hlen.symm),
      List.take_of_length_le (le_of_eq hlen)]
    simp [flatten_segmentPayload p m hm]
  · intro h0
    subst h0
    have hfc : fragCount ([] : Bytes) m = 1 := by
      have hdiv : (m - 1) / m = 0 := Nat.div_eq_of_lt (by omega)
      simp [fragCount, hdiv]
    have hr : List.range 1 = [0] := rfl
    simp [segmentPayload, hfc, fragSlice, hr]

/-- Witness for C3 at a concrete payload and fragment size. -/
theorem C3_codec_roundtrip_witness :
    reassembleFragments ((segmentPayload [1, 2, 3] 2).enum) (fragCount [1, 2, 3] 2) =
        some [1, 2, 3] ∧
      (([1, 2, 3] : Bytes) = [] → segmentPayload [1, 2, 3] 2 = [[]]) :=
  C3_codec_roundtrip [1, 2, 3] 2 (by decide)

/-! ## Replay Engine: claim C7 -/

theorem replayFramesLoop_stdout_only (ctl : Nat → ReplayCtl) :
    ∀ (frames : List (Rat × Bytes)) (idx : Nat),
      ∀ msg ∈ replayFramesLoop frames idx ctl, ∃ i c, msg = ReplayMsg.stdoutMsg i c := by
  intro frames
  induction frames with
  | nil => intro idx msg hm; simp [replayFramesLoop] at hm
  | cons f rest ih =>
    intro idx msg hmem
    obtain ⟨d, chunk⟩ := f
    rw [replayFramesLoop] at hmem
    cases hctl : ctl idx
    · simp only [hctl, List.mem_cons] at hmem
      rcases hmem with h1 | h2
      · exact ⟨idx, chunk, h1⟩
      · exact ih (idx + 1) msg h2
    · simp [hctl] at hmem
    · simp [hctl] at hmem

/-- Claim C7: whenever the replay loop terminates — whole script played,
early stop signal, superseded, or interrupted — its emissions always end
with a terminal `exit` of code 0 followed by the end-of-call notification;
everything before them is scripted stdout data. -/
theorem C7_replay_always_finalized (frames : List (Rat × Bytes))
    (ctl : Nat → ReplayCtl) (initialStop : Bool) :
    ∃ played, replay_loop_msgs frames ctl initialStop =
        played ++ [ReplayMsg.exitMsg 0, ReplayMsg.endCall "replay_done"] ∧
      ∀ msg ∈ played, ∃ i c, msg = ReplayMsg.stdoutMsg i c := by
  refine ⟨if initialStop then [] else replayFramesLoop frames 0 ctl, rfl, ?_⟩
  cases initialStop
  · simpa using replayFramesLoop_stdout_only ctl frames 0
  · simp

/-! ## Session Controller invite arm: claim C8 -/

/-- Claim C8: on `call_invite_received`, an idle bridge replies
`accept_call`; a bridge with an active call replies `reject_call` with
reason `"busy"` and its call state is unchanged in both cases. -/
theorem C8_invite_busy_or_accept (mode : CallMode) (ids : BridgeCallIds)
    (call_id : String) :
    (activeCallFor mode ids = none →
      handle_call_invite mode ids call_id = (ids, .accept_call call_id)) ∧
    (activeCallFor mode ids ≠ none →
      handle_call_invite mode ids call_id = (ids, .reject_call call_id "busy")) := by
  cases mode <;> constructor <;> intro h <;>
    simp_all [handle_call_invite, activeCallFor]

/-- Witness for C8: one idle and one busy bridge. -/
theorem C8_invite_busy_or_accept_witness :
    handle_call_invite .pty ⟨none, none⟩ "b" = (⟨none, none⟩, .accept_call "b") ∧
      handle_call_invite .pty ⟨some "a", none⟩ "b" =
        (⟨some "a", none⟩, .reject_call "b" "busy") :=
  ⟨(C8_invite_busy_or_accept .pty ⟨none, none⟩ "b").1 rfl,
    (C8_invite_busy_or_accept .pty ⟨some "a", none⟩ "b").2 (by simp [activeCallFor])⟩

/-! ## PTY call-data dispatch: claim C10 -/

/-- Claim C10: an inbound `call_data` payload of type `"exit"` makes the
bridge issue `end_call` for that payload's `call_id` before the active-call
check — for every bridge state, including a mismatched or absent active
call. -/
theorem C10_exit_ends_named_call (st : PtyCallState) (msg : CallDataMsg)
    (p : TermPayload) (hp : msg.payload = some p) (ht : p.t = "exit") :
    (handle_call_data st msg).2 = [.endCallCmd msg.call_id "peer_exit"] := by
  simp [handle_call_data, hp, ht]

/-- Witness for C10: an `exit` payload arriving with no active call. -/
theorem C10_exit_ends_named_call_witness :
    (handle_call_data ⟨none, none, false⟩ ⟨"x", some ⟨"exit", [], 0, 0⟩⟩).2 =
      [.endCallCmd "x" "peer_exit"] :=
  C10_exit_ends_named_call ⟨none, none, false⟩ ⟨"x", some ⟨"exit", [], 0, 0⟩⟩
    ⟨"exit", [], 0, 0⟩ rfl rfl

end PiBridge

namespace AgentPty

/-! ## Reorder buffer fast paths: claim C9 -/

/-- Claim C9: a stdout payload whose sequence field is not an integer
bypasses reordering — its decoded data is emitted immediately and the buffer
is untouched; a payload with empty decoded data is dropped without being
recorded even when it carries a valid sequence number. -/
theorem C9_bypass_and_empty_drop (now : Rat) (b : ReorderBuffer)
    (p : StdoutPayload) :
    (p.s_field = none →
      push now b p = (b, if p.d = [] then [] else [p.d])) ∧
    (p.d = [] → push now b p = (b, [])) := by
  constructor
  · intro h; simp [push, h]
  · intro h
    cases hs : p.s_field
    · simp [push, hs, h]
    · simp [push, hs, h]

/-- Witness for C9: a non-integer sequence field with non-empty data, and an
empty payload with a valid sequence number. -/
theorem C9_bypass_and_empty_drop_witness :
    push 0 (mkBuffer true (35 / 100)) ⟨none, [1]⟩ = (mkBuffer true (35 / 100), [[1]]) ∧
      push 0 (mkBuffer true (35 / 100)) ⟨some 3, []⟩ = (mkBuffer true (35 / 100), []) :=
  ⟨by simpa using (C9_bypass_and_empty_drop 0 (mkBuffer true (35 / 100)) ⟨none, [1]⟩).1 rfl,
    (C9_bypass_and_empty_drop 0 (mkBuffer true (35 / 100)) ⟨some 3, []⟩).2 rfl⟩

/-! ## Gap-skip liveness: claim C4

Step lemmas tracing the buffer through the `{0, 2}`-with-1-missing scenario.
The skip branch runs inside `push`, so the ~T-delayed delivery of frame 2
happens on the first sequenced chunk processed after the timeout — modelled
by redeliveries of frame 2 probing the buffer at later times. -/

theorem push_frame0 (a : Bool) (T t : Rat) (d0 : Bytes) (h0 : d0 ≠ []) :
    push t (mkBuffer a T) ⟨some 0, d0⟩ =
      (⟨some 1, [], none, a, T⟩, [d0]) := by
  simp [push, mkBuffer, insertPend, minPendKey, emitRun, emitAux, lookupPend,
    erasePend, h0]

theorem push_frame2_first (a : Bool) (T t : Rat) (d2 : Bytes) (h2 : d2 ≠ [])
    (hT : 0 ≤ T) :
    push t (⟨some 1, [], none, a, T⟩ : ReorderBuffer) ⟨some 2, d2⟩ =
      (⟨some 1, [(2, d2)], some t, a, T⟩, []) := by
  have hc : ¬(a = true ∧ T < t - t) := by
    rintro ⟨-, hlt⟩
    simp only [sub_self] at hlt
    exact absurd hT (not_le.mpr hlt)
  simp only [push, insertPend, minPendKey, emitRun, emitAux, lookupPend, erasePend]
  simp [h2, hc]
  exact fun _ => hT

theorem push_frame2_early (a : Bool) (T now g : Rat) (d2 : Bytes) (h2 : d2 ≠ [])
    (hng : ¬ T < now - g) :
    push now (⟨some 1, [(2, d2)], some g, a, T⟩ : ReorderBuffer) ⟨some 2, d2⟩ =
      (⟨some 1, [(2, d2)], some g, a, T⟩, []) := by
  have hc : ¬(a = true ∧ T < now - g) := by rintro ⟨-, hlt⟩; exact hng hlt
  simp [push, insertPend, minPendKey, emitRun, emitAux, lookupPend, erasePend, h2, hc]

theorem push_frame2_off (T now g : Rat) (d2 : Bytes) (h2 : d2 ≠ []) :
    push now (⟨some 1, [(2, d2)], some g, false, T⟩ : ReorderBuffer) ⟨some 2, d2⟩ =
      (⟨some 1, [(2, d2)], some g, false, T⟩, []) := by
  simp [push, insertPend, minPendKey, emitRun, emitAux, lookupPend, erasePend, h2]

theorem push_frame2_late (T now g : Rat) (d2 : Bytes) (h2 : d2 ≠ [])
    (hgt : T < now - g) :
    push now (⟨some 1, [(2, d2)], some g, true, T⟩ : ReorderBuffer) ⟨some 2, d2⟩ =
      (⟨some 3, [], none, true, T⟩, [d2]) := by
  simp [push, insertPend, minPendKey, emitRun, emitAux, lookupPend, erasePend, h2, hgt]

theorem pushTrace_off_tail (T g : Rat) (d2 : Bytes) (h2 : d2 ≠ []) :
    ∀ ts : List Rat,
      pushTrace (⟨some 1, [(2, d2)], some g, false, T⟩ : ReorderBuffer)
          (ts.map fun t => (t, ⟨some 2, d2⟩)) =
        (⟨some 1, [(2, d2)], some g, false, T⟩, ts.map fun _ => []) := by
  intro ts
  induction ts with
  | nil => simp [pushTrace]
  | cons t rest ih => simp [pushTrace, push_frame2_off T t g d2 h2, ih]

/-- Claim C4: feeding frames `{0, 2}` with frame 1 permanently missing —
with gap recovery enabled and timeout `T`, frame 0 is emitted immediately,
nothing is emitted while the gap is younger than `T`, and the first chunk
processed once the gap is older than `T` flushes exactly frame 2 (frame 1 is
never emitted); with gap recovery disabled, frame 0 is the only frame ever
emitted no matter how long and how often the buffer is probed afterwards. -/
theorem C4_gap_skip_liveness (T t0 t1 t2 t2' : Rat) (ts : List Rat) (d0 d2 : Bytes)
    (h0 : d0 ≠ []) (h2 : d2 ≠ []) (hT : 0 ≤ T) (hearly : ¬ T < t2 - t1)
    (hlate : T < t2' - t1) :
    (pushTrace (mkBuffer true T)
        [(t0, ⟨some 0, d0⟩), (t1, ⟨some 2, d2⟩), (t2', ⟨some 2, d2⟩)]).2 =
      [[d0], [], [d2]] ∧
    (pushTrace (mkBuffer true T)
        [(t0, ⟨some 0, d0⟩), (t1, ⟨some 2, d2⟩), (t2, ⟨some 2, d2⟩)]).2 =
      [[d0], [], []] ∧
    (pushTrace (mkBuffer false T)
        ((t0, ⟨some 0, d0⟩) :: (t1, ⟨some 2, d2⟩) ::
          ts.map fun t => (t, ⟨some 2, d2⟩))).2.flatten = [d0] := by
  refine ⟨?_, ?_, ?_⟩
  · simp [pushTrace, push_frame0 true T t0 d0 h0,
      push_frame2_first true T t1 d2 h2 hT, push_frame2_late T t2' t1 d2 h2 hlate]
  · simp [pushTrace, push_frame0 true T t0 d0 h0,
      push_frame2_first true T t1 d2 h2 hT, push_frame2_early true T t2 t1 d2 h2 hearly]
  · simp [pushTrace, push_frame0 false T t0 d0 h0,
      push_frame2_first false T t1 d2 h2 hT, pushTrace_off_tail T t1 d2 h2 ts]

/-! ## Fidelity harness: claim C5 -/

theorem scanFirst_none_iff (f : Nat → Bool) :
    ∀ (fuel start : Nat), scanFirst f start fuel = none ↔
      ∀ j, start ≤ j → j < start + fuel → f j = false := by
  intro fuel
  induction fuel with
  | zero =>
    intro start
    simp only [scanFirst]
    constructor
    · intro _ j h1 h2; omega
    · intro _; trivial
  | succ fuel ih =>
    intro start
    by_cases hf : f start
    · simp only [scanFirst, if_pos hf]
      constructor
      · intro h; cases h
      · intro hall
        have := hall start le_rfl (by omega)
        rw [hf] at this; cases this
    · simp only [scanFirst, if_neg hf, ih (start + 1)]
      constructor
      · intro h j h1 h2
        rcases Nat.eq_or_lt_of_le h1 with rfl | hlt
        · exact Bool.eq_false_iff.mpr hf
        · exact h j hlt (by omega)
      · intro h j h1 h2
        exact h j (by omega) (by omega)

theorem scanFirst_some_elim (f : Nat → Bool) :
    ∀ (fuel start m : Nat), scanFirst f start fuel = some m →
      start ≤ m ∧ m < start + fuel ∧ f m = true ∧
        ∀ j, start ≤ j → j < m → f j = false := by
  intro fuel
  induction fuel with
  | zero => intro start m h; cases h
  | succ fuel ih =>
    intro start m h
    by_cases hf : f start
    · rw [scanFirst, if_pos hf] at h
      obtain rfl : start = m := by injection h
      exact ⟨le_rfl, by omega, hf, fun j h1 h2 => by omega⟩
    · rw [scanFirst, if_neg hf] at h
      obtain ⟨h1, h2, h3, h4⟩ := ih (start + 1) m h
      refine ⟨by omega, by omega, h3, fun j hj1 hj2 => ?_⟩
      rcases Nat.eq_or_lt_of_le hj1 with rfl | hlt
      · exact Bool.eq_false_iff.mpr hf
      · exact h4 j hlt hj2

theorem scanFirst_some_intro (f : Nat → Bool) :
    ∀ (fuel start m : Nat), start ≤ m → m < start + fuel → f m = true →
      (∀ j, start ≤ j → j < m → f j = false) → scanFirst f start fuel = some m := by
  intro fuel
  induction fuel with
  | zero => intro start m h1 h2; omega
  | succ fuel ih =>
    intro start m h1 h2 h3 h4
    rcases Nat.eq_or_lt_of_le h1 with rfl | hlt
    · rw [scanFirst, if_pos h3]
    · have hf : f start = false := h4 start le_rfl hlt
      rw [scanFirst, if_neg (by simp [hf])]
      exact ih (start + 1) m (by omega) (by omega) h3 fun j hj1 hj2 => h4 j (by omega) hj2

theorem findFirstLe_none_iff (f : Nat → Bool) (bound : Nat) :
    findFirstLe f bound = none ↔ ∀ j, j ≤ bound → f j = false := by
  rw [findFirstLe, scanFirst_none_iff]
  constructor
  · intro h j hj; exact h j (by omega) (by omega)
  · intro h j _ hj; exact h j (by omega)

theorem findFirstLe_some_elim (f : Nat → Bool) (bound m : Nat)
    (h : findFirstLe f bound = some m) :
    m ≤ bound ∧ f m = true ∧ ∀ j, j < m → f j = false := by
  obtain ⟨h1, h2, h3, h4⟩ := scanFirst_some_elim f (bound + 1) 0 m h
  exact ⟨by omega, h3, fun j hj => h4 j (by omega) hj⟩

theorem findFirstLe_some_intro (f : Nat → Bool) (bound m : Nat) (h1 : m ≤ bound)
    (h2 : f m = true) (h3 : ∀ j, j < m → f j = false) :
    findFirstLe f bound = some m :=
  scanFirst_some_intro f (bound + 1) 0 m (by omega) (by omega) h2
    fun j _ hj => h3 j hj

theorem trimSliceEq_true_elim (c e : Bytes) (p q : Nat)
    (h : trimSliceEq c e p q = true) :
    p ≤ e.length - q ∧ c = (e.take (e.length - q)).drop p := by
  by_cases hlt : e.length - q < p
  · rw [trimSliceEq] at h; simp only [if_pos hlt] at h; cases h
  · rw [trimSliceEq] at h
    simp only [if_neg hlt, beq_iff_eq] at h
    exact ⟨by omega, h⟩

theorem trimSliceEq_of (c e : Bytes) (p q : Nat) (hle : p ≤ e.length - q)
    (heq : c = (e.take (e.length - q)).drop p) : trimSliceEq c e p q = true := by
  have hlt : ¬ e.length - q < p := by omega
  rw [trimSliceEq]
  simp only [if_neg hlt, beq_iff_eq]
  exact heq

theorem trimSliceEq_false_of_length (c e : Bytes) (p q : Nat)
    (hne : c.length ≠ ((e.take (e.length - q)).drop p).length) :
    trimSliceEq c e p q = false := by
  by_cases hb : trimSliceEq c e p q = true
  · obtain ⟨-, heq⟩ := trimSliceEq_true_elim c e p q hb
    exact absurd (congrArg List.length heq) hne
  · exact Bool.eq_false_iff.mpr hb

/-- Claim C5 part 2, corrected: the trim search scans leading drops
outermost, trailing drops innermost, and reports the first hit; when the
capture equals `expected[1:]`, the pair `(leading 1, trailing 0)` is
reported unless dropping the trailing byte instead already matches
(`expected[1:] = expected[:-1]`, i.e. all fixture bytes equal), which is
scanned earlier as `(leading 0, trailing 1)`. -/
theorem C5_fidelity_amended (captured expected : Bytes) (maxPreDrop maxSufDrop : Nat) :
    (captured = expected →
      compareCapture captured expected maxPreDrop maxSufDrop =
        (.matchedExact captured.length, 0)) ∧
    (expected ≠ [] → captured = expected.drop 1 → 1 ≤ maxPreDrop → 1 ≤ maxSufDrop →
      compareCapture captured expected maxPreDrop maxSufDrop =
        (if expected.drop 1 = expected.dropLast then
          (.matchedTrim 0 1 captured.length expected.length, 0)
        else (.matchedTrim 1 0 captured.length expected.length, 0))) ∧
    ((∀ p, p ≤ min maxPreDrop expected.length → ∀ q, q ≤ min maxSufDrop expected.length →
        trimSliceEq captured expected p q = false) →
      compareCapture captured expected maxPreDrop maxSufDrop =
        (.mismatch captured.length expected.length (firstDiffIdx captured expected), 1)) := by
  refine ⟨fun he => by rw [compareCapture, if_pos he, he], ?_, ?_⟩
  · intro hne hdrop hmp hms
    have hlen1 : 1 ≤ expected.length := by
      cases expected with
      | nil => exact absurd rfl hne
      | cons x xs => simp
    have hclen : captured.length = expected.length - 1 := by
      rw [hdrop, List.length_drop]
    have hcne : captured ≠ expected := fun he => by
      rw [he] at hclen; omega
    have hq0 : trimSliceEq captured expected 0 0 = false := by
      apply trimSliceEq_false_of_length
      simp only [Nat.sub_zero, List.take_length, List.drop_zero]
      omega
    have hslice1 : (expected.take (expected.length - 1)).drop 0 = expected.dropLast := by
      rw [List.drop_zero, List.dropLast_eq_take]
    have hp1q0 : trimSliceEq captured expected 1 0 = true := by
      apply trimSliceEq_of
      · omega
      · simp only [Nat.sub_zero, List.take_length]
        exact hdrop
    by_cases hA : expected.drop 1 = expected.dropLast
    · -- the all-bytes-equal case: (0, 1) is found first
      have hq1 : trimSliceEq captured expected 0 1 = true := by
        apply trimSliceEq_of
        · omega
        · rw [hslice1, hdrop, hA]
      have hinner : findFirstLe (fun q => trimSliceEq captured expected 0 q)
          (min maxSufDrop expected.length) = some 1 := by
        apply findFirstLe_some_intro _ _ 1 (by omega) hq1
        intro j hj
        obtain rfl : j = 0 := by omega
        exact hq0
      have houter : findFirstLe
          (fun p => (findFirstLe (fun q => trimSliceEq captured expected p q)
            (min maxSufDrop expected.length)).isSome)
          (min maxPreDrop expected.length) = some 0 := by
        apply findFirstLe_some_intro _ _ 0 (by omega)
        · rw [hinner]; rfl
        · intro j hj; omega
      have hmatch : findTrimMatch captured expected (min maxPreDrop expected.length)
          (min maxSufDrop expected.length) = some (0, 1) := by
        unfold findTrimMatch
        simp [houter, hinner]
      rw [if_pos hA]
      simp only [compareCapture, if_neg hcne, hmatch]
    · -- the generic case: (1, 0) is found
      have hlen2 : 2 ≤ expected.length := by
        by_contra hcon
        have h1 : expected.length = 1 := by omega
        apply hA
        rw [List.dropLast_eq_take, h1]
        have : expected.drop 1 = [] := List.drop_eq_nil_of_le (by omega)
        simp [this]
      have hq1f : trimSliceEq captured expected 0 1 = false := by
        by_cases hb : trimSliceEq captured expected 0 1 = true
        · obtain ⟨-, heq⟩ := trimSliceEq_true_elim captured expected 0 1 hb
          rw [hslice1] at heq
          exact absurd (hdrop.symm.trans heq) hA
        · exact Bool.eq_false_iff.mpr hb
      have hqbig : ∀ q, 2 ≤ q → q ≤ min maxSufDrop expected.length →
          trimSliceEq captured expected 0 q = false := by
        intro q hq2 hqle
        apply trimSliceEq_false_of_length
        simp only [List.drop_zero, List.length_take]
        omega
      have hinner0 : findFirstLe (fun q => trimSliceEq captured expected 0 q)
          (min maxSufDrop expected.length) = none := by
        rw [findFirstLe_none_iff]
        intro j hj
        rcases Nat.lt_or_ge j 2 with hj2 | hj2
        · interval_cases j
          · exact hq0
          · exact hq1f
        · exact hqbig j hj2 hj
      have hinner1 : findFirstLe (fun q => trimSliceEq captured expected 1 q)
          (min maxSufDrop expected.length) = some 0 := by
        apply findFirstLe_some_intro _ _ 0 (by omega) hp1q0
        intro j hj; omega
      have houter : findFirstLe
          (fun p => (findFirstLe (fun q => trimSliceEq captured expected p q)
            (min maxSufDrop expected.length)).isSome)
          (min maxPreDrop expected.length) = some 1 := by
        apply findFirstLe_some_intro _ _ 1 (by omega)
        · rw [hinner1]; rfl
        · intro j hj
          obtain rfl : j = 0 := by omega
          rw [hinner0]; rfl
      have hmatch : findTrimMatch captured expected (min maxPreDrop expected.length)
          (min maxSufDrop expected.length) = some (1, 0) := by
        unfold findTrimMatch
        simp [houter, hinner1]
      rw [if_neg hA]
      simp only [compareCapture, if_neg hcne, hmatch]
  · intro hall
    have hcne : captured ≠ expected := by
      intro he
      have h00 := hall 0 (by omega) 0 (by omega)
      rw [trimSliceEq] at h00
      simp only [Nat.sub_zero, List.take_length, List.drop_zero,
        if_neg (by omega : ¬ expected.length < 0), beq_iff_eq] at h00
      rw [he] at h00
      simp at h00
    have hinner : ∀ p, p ≤ min maxPreDrop expected.length →
        findFirstLe (fun q => trimSliceEq captured expected p q)
          (min maxSufDrop expected.length) = none := by
      intro p hp
      rw [findFirstLe_none_iff]
      intro q hq
      exact hall p hp q hq
    have houter : findFirstLe
        (fun p => (findFirstLe (fun q => trimSliceEq captured expected p q)
          (min maxSufDrop expected.length)).isSome)
        (min maxPreDrop expected.length) = none := by
      rw [findFirstLe_none_iff]
      intro j hj
      rw [hinner j hj]
      rfl
    have hmatch : findTrimMatch captured expected (min maxPreDrop expected.length)
        (min maxSufDrop expected.length) = none := by
      unfold findTrimMatch
      simp [houter]
    simp only [compareCapture, if_neg hcne, hmatch, ne_eq, not_false_eq_true, if_pos hcne,
      ite_true]

/-- Counterexample to C5 as stated: `captured = [0]`, `expected = [0, 0]` is
exactly one leading byte dropped within tolerance, yet the harness reports
`leading_drop=0 trailing_drop=1` — the suffix-trim is scanned first and also
matches because both fixture bytes are equal. -/
theorem C5_fidelity_counterexample : ¬ FidelityClaim := by
  intro h
  have h2 := (h [0] [0, 0] 32 32).2.1 (by decide) (by decide) (by decide)
  have hc : compareCapture [0] [0, 0] 32 32 =
      (.matchedTrim 0 1 1 2, 0) := by decide
  rw [hc] at h2
  exact absurd h2 (by decide)

/-- Witness for the amended C5 at concrete captures. -/
theorem C5_fidelity_amended_witness :
    compareCapture [1, 2] [0, 1, 2] 32 32 = (.matchedTrim 1 0 2 3, 0) ∧
      compareCapture [0] [0, 0] 32 32 = (.matchedTrim 0 1 1 2, 0) ∧
      compareCapture [9] [1, 2] 1 1 = (.mismatch 1 2 0, 1) := by
  refine ⟨?_, ?_, ?_⟩
  · have h := (C5_fidelity_amended [1, 2] [0, 1, 2] 32 32).2.1 (by decide) (by decide)
      (by decide) (by decide)
    rw [if_neg (by decide)] at h
    exact h
  · have h := (C5_fidelity_amended [0] [0, 0] 32 32).2.1 (by decide) (by decide)
      (by decide) (by decide)
    rw [if_pos (by decide)] at h
    exact h
  · exact (C5_fidelity_amended [9] [1, 2] 1 1).2.2 (by decide)

/-- Witness for C4 at concrete times and payloads. -/
theorem C4_gap_skip_liveness_witness :
    (pushTrace (mkBuffer true 1)
        [((0 : Rat), ⟨some 0, [65]⟩), (0, ⟨some 2, [66]⟩), (3, ⟨some 2, [66]⟩)]).2 =
      [[[65]], [], [[66]]] ∧
    (pushTrace (mkBuffer true 1)
        [((0 : Rat), ⟨some 0, [65]⟩), (0, ⟨some 2, [66]⟩), (1, ⟨some 2, [66]⟩)]).2 =
      [[[65]], [], []] ∧
    (pushTrace (mkBuffer false 1)
        [((0 : Rat), ⟨some 0, [65]⟩), (0, ⟨some 2, [66]⟩), (9, ⟨some 2, [66]⟩)]).2.flatten =
      [[65]] := by
  have h := C4_gap_skip_liveness 1 0 0 1 3 [9] [65] [66] (by decide) (by decide)
    (by norm_num) (by norm_num) (by norm_num)
  simpa using h

end AgentPty

namespace PiBridge

/-! ## Association-list and seen-set lemmas for the Reassembly Engine -/

theorem lookupSeq_eq_none_iff (l : List (Nat × Bytes)) (k : Nat) :
    lookupSeq l k = none ↔ k ∉ l.map Prod.fst := by
  induction l with
  | nil => simp [lookupSeq]
  | cons x xs ih =>
    obtain ⟨a, b⟩ := x
    by_cases h : a = k
    · subst h
      simp [lookupSeq]
    · simp [lookupSeq, h, ih, Ne.symm h]

theorem lookupSeq_mem {l : List (Nat × Bytes)} {k : Nat} {v : Bytes}
    (h : lookupSeq l k = some v) : (k, v) ∈ l := by
  induction l with
  | nil => cases h
  | cons x xs ih =>
    obtain ⟨a, b⟩ := x
    by_cases ha : a = k
    · subst ha
      rw [lookupSeq, if_pos rfl] at h
      obtain rfl : b = v := by injection h
      exact List.mem_cons_self _ _
    · rw [lookupSeq, if_neg ha] at h
      exact List.mem_cons_of_mem _ (ih h)

theorem lookupSeq_isSome_of_mem {l : List (Nat × Bytes)} {k : Nat}
    (h : k ∈ l.map Prod.fst) : ∃ v, lookupSeq l k = some v := by
  cases hl : lookupSeq l k with
  | none => exact absurd ((lookupSeq_eq_none_iff l k).mp hl) (by simp [h])
  | some v => exact ⟨v, rfl⟩

theorem mem_eraseSeq {l : List (Nat × Bytes)} {k : Nat} {x : Nat × Bytes} :
    x ∈ eraseSeq l k ↔ x ∈ l ∧ ¬ x.1 = k := by
  simp [eraseSeq, List.mem_filter]

theorem eraseSeq_length_lt {l : List (Nat × Bytes)} {k : Nat}
    (h : k ∈ l.map Prod.fst) : (eraseSeq l k).length < l.length := by
  induction l with
  | nil => simp at h
  | cons x xs ih =>
    obtain ⟨a, b⟩ := x
    by_cases ha : a = k
    · subst ha
      have : (eraseSeq xs a).length ≤ xs.length := List.length_filter_le _ _
      simp only [eraseSeq, List.filter_cons]
      rw [if_neg (by simp)]
      calc (List.filter (fun p => decide ¬p.1 = a) xs).length ≤ xs.length :=
            List.length_filter_le _ _
        _ < (List.length ((a, b) :: xs)) := by simp
    · simp only [List.map_cons, List.mem_cons] at h
      rcases h with h | h
      · exact absurd h.symm ha
      · have := ih h
        simp only [eraseSeq, List.filter_cons] at this ⊢
        rw [if_pos (by simpa using ha)]
        simpa using this

theorem lookupSeq_eraseSeq {l : List (Nat × Bytes)} {k j : Nat} (hne : j ≠ k) :
    lookupSeq (eraseSeq l k) j = lookupSeq l j := by
  induction l with
  | nil => rfl
  | cons x xs ih =>
    obtain ⟨a, b⟩ := x
    by_cases ha : a = k
    · subst ha
      simp only [eraseSeq, List.filter_cons]
      rw [if_neg (by simp)]
      rw [lookupSeq, if_neg (fun hh => hne hh.symm)]
      exact ih
    · simp only [eraseSeq, List.filter_cons]
      rw [if_pos (by simpa using ha)]
      by_cases hj : a = j
      · subst hj
        rw [lookupSeq, if_pos rfl, lookupSeq, if_pos rfl]
      · rw [lookupSeq, if_neg hj, lookupSeq, if_neg hj]
        exact ih

theorem mem_insertSeen {k x : String × String × Nat}
    {seen : List (String × String × Nat)} :
    x ∈ insertSeen k seen ↔ x = k ∨ x ∈ seen := by
  unfold insertSeen
  by_cases h : k ∈ seen
  · rw [if_pos h]
    constructor
    · intro hx; exact Or.inr hx
    · rintro (rfl | hx)
      · exact h
      · exact hx
  · rw [if_neg h]
    simp

theorem insertSeen_nodup {k : String × String × Nat}
    {seen : List (String × String × Nat)} (h : seen.Nodup) :
    (insertSeen k seen).Nodup := by
  unfold insertSeen
  by_cases hk : k ∈ seen
  · rwa [if_pos hk]
  · rw [if_neg hk]
    exact List.Nodup.cons hk h

theorem insertSeen_length_le (k : String × String × Nat)
    (seen : List (String × String × Nat)) :
    (insertSeen k seen).length ≤ seen.length + 1 := by
  unfold insertSeen
  by_cases hk : k ∈ seen
  · rw [if_pos hk]; omega
  · rw [if_neg hk]; simp

theorem mem_foldl_insertSeen (f : Nat × Bytes → String × String × Nat) :
    ∀ (ready : List (Nat × Bytes)) (seen : List (String × String × Nat))
      (x : String × String × Nat),
      x ∈ ready.foldl (fun acc r => insertSeen (f r) acc) seen ↔
        x ∈ seen ∨ ∃ r ∈ ready, x = f r := by
  intro ready
  induction ready with
  | nil => simp
  | cons r rest ih =>
    intro seen x
    rw [List.foldl_cons, ih, mem_insertSeen]
    constructor
    · rintro ((rfl | hx) | ⟨r', hr', rfl⟩)
      · exact Or.inr ⟨r, by simp⟩
      · exact Or.inl hx
      · exact Or.inr ⟨r', by simp [hr']⟩
    · rintro (hx | ⟨r', hr', rfl⟩)
      · exact Or.inl (Or.inr hx)
      · rcases List.mem_cons.mp hr' with rfl | hr'
        · exact Or.inl (Or.inl rfl)
        · exact Or.inr ⟨r', hr', rfl⟩

theorem nodup_foldl_insertSeen (f : Nat × Bytes → String × String × Nat) :
    ∀ (ready : List (Nat × Bytes)) (seen : List (String × String × Nat)),
      seen.Nodup →
      (ready.foldl (fun acc r => insertSeen (f r) acc) seen).Nodup := by
  intro ready
  induction ready with
  | nil => intro seen h; exact h
  | cons r rest ih =>
    intro seen h
    rw [List.foldl_cons]
    exact ih _ (insertSeen_nodup h)

theorem length_foldl_insertSeen (f : Nat × Bytes → String × String × Nat) :
    ∀ (ready : List (Nat × Bytes)) (seen : List (String × String × Nat)),
      (ready.foldl (fun acc r => insertSeen (f r) acc) seen).length ≤
        seen.length + ready.length := by
  intro ready
  induction ready with
  | nil => intro seen; simp
  | cons r rest ih =>
    intro seen
    rw [List.foldl_cons]
    calc (rest.foldl (fun acc r => insertSeen (f r) acc) (insertSeen (f r) seen)).length
        ≤ (insertSeen (f r) seen).length + rest.length := ih _
      _ ≤ seen.length + 1 + rest.length := by
          have := insertSeen_length_le (f r) seen
          omega
      _ = seen.length + (r :: rest).length := by simp; omega

theorem prune_noop {session_id stream : String} {next_expected : Nat}
    {seen : List (String × String × Nat)}
    (h : seen.length < max_rpc_reorder_window * 2) :
    prune_rpc_seen session_id stream next_expected seen = seen := by
  unfold prune_rpc_seen
  rw [if_pos h]

theorem seen_length_le (sid st : String) (E : Nat)
    (seen : List (String × String × Nat)) (hnd : seen.Nodup)
    (hmem : ∀ x ∈ seen, ∃ j, j < E ∧ x = (sid, st, j)) :
    seen.length ≤ E := by
  have hsub : seen ⊆ (List.range E).map fun j => (sid, st, j) := by
    intro x hx
    obtain ⟨j, hj, rfl⟩ := hmem x hx
    exact List.mem_map.mpr ⟨j, List.mem_range.mpr hj, rfl⟩
  have := (List.subperm_of_subset hnd hsub).length_le
  simpa using this

/-! ## Drain-loop specification -/

theorem drainAux_spec (g : Nat → Bytes) :
    ∀ (fuel : Nat) (l : List (Nat × Bytes)) (E : Nat), l.length ≤ fuel →
      (∀ p ∈ l, p.2 = g p.1) →
      ∃ (r : Nat) (pend' : List (Nat × Bytes)),
        drainAux fuel l E = ((List.range' E r).map fun j => (j, g j), E + r, pend') ∧
        List.Sublist pend' l ∧
        (∀ x : Nat × Bytes, x ∈ pend' ↔ x ∈ l ∧ ¬(E ≤ x.1 ∧ x.1 < E + r)) ∧
        lookupSeq l (E + r) = none ∧
        (∀ j, E ≤ j → j < E + r → j ∈ l.map Prod.fst) := by
  intro fuel
  induction fuel with
  | zero =>
    intro l E hlen _
    obtain rfl : l = [] := List.eq_nil_of_length_eq_zero (by omega)
    exact ⟨0, [], by simp [drainAux], List.Sublist.refl _, by simp, rfl,
      fun j h1 h2 => by omega⟩
  | succ fuel ih =>
    intro l E hlen hval
    cases hlook : lookupSeq l E with
    | none =>
      refine ⟨0, l, ?_, List.Sublist.refl _, ?_, by simpa using hlook,
        fun j h1 h2 => by omega⟩
      · rw [drainAux, hlook]
        simp
      · intro x
        constructor
        · intro hx; exact ⟨hx, by omega⟩
        · intro hx; exact hx.1
    | some v =>
      have hmem : (E, v) ∈ l := lookupSeq_mem hlook
      have hkey : E ∈ l.map Prod.fst := List.mem_map.mpr ⟨(E, v), hmem, rfl⟩
      have hv : v = g E := hval _ hmem
      have hlen' : (eraseSeq l E).length ≤ fuel := by
        have := eraseSeq_length_lt hkey
        omega
      have hval' : ∀ p ∈ eraseSeq l E, p.2 = g p.1 := fun p hp =>
        hval p (mem_eraseSeq.mp hp).1
      obtain ⟨r', pend', heq, hsub, hiff, hlook', hcov⟩ := ih (eraseSeq l E) (E + 1)
        hlen' hval'
      refine ⟨r' + 1, pend', ?_, ?_, ?_, ?_, ?_⟩
      · rw [drainAux, hlook]
        simp only [heq]
        rw [List.range'_succ, List.map_cons, hv]
        have harith : E + 1 + r' = E + (r' + 1) := by omega
        rw [harith]
      · exact hsub.trans (List.filter_sublist _)
      · intro x
        rw [hiff, mem_eraseSeq]
        constructor
        · rintro ⟨⟨hx, hne⟩, hwin⟩
          exact ⟨hx, by omega⟩
        · rintro ⟨hx, hwin⟩
          exact ⟨⟨hx, by omega⟩, by omega⟩
      · have harith : E + (r' + 1) = (E + 1) + r' := by omega
        rw [harith, ← lookupSeq_eraseSeq (by omega : (E + 1) + r' ≠ E)]
        exact hlook'
      · intro j h1 h2
        rcases Nat.eq_or_lt_of_le h1 with rfl | hlt
        · exact hkey
        · have := hcov j (by omega) (by omega)
          obtain ⟨⟨a, b⟩, hab, rfl⟩ := List.mem_map.mp this
          exact List.mem_map.mpr ⟨(a, b), (mem_eraseSeq.mp hab).1, rfl⟩

theorem drainPending_spec (g : Nat → Bytes) (l : List (Nat × Bytes)) (E : Nat)
    (hval : ∀ p ∈ l, p.2 = g p.1) :
    ∃ (r : Nat) (pend' : List (Nat × Bytes)),
      drainPending l E = ((List.range' E r).map fun j => (j, g j), E + r, pend') ∧
      List.Sublist pend' l ∧
      (∀ x : Nat × Bytes, x ∈ pend' ↔ x ∈ l ∧ ¬(E ≤ x.1 ∧ x.1 < E + r)) ∧
      lookupSeq l (E + r) = none ∧
      (∀ j, E ≤ j → j < E + r → j ∈ l.map Prod.fst) :=
  drainAux_spec g l.length l E le_rfl hval

/-! ## Assembly-loop and pigeonhole lemmas -/

theorem keys_full {keys : List Nat} {n : Nat} (hnd : keys.Nodup)
    (hlt : ∀ k ∈ keys, k < n) (hlen : n ≤ keys.length) :
    ∀ i, i < n → i ∈ keys := by
  intro i hi
  have hsubset : keys.toFinset ⊆ Finset.range n := by
    intro x hx
    exact Finset.mem_range.mpr (hlt x (List.mem_toFinset.mp hx))
  have hcard : (Finset.range n).card ≤ keys.toFinset.card := by
    rw [List.toFinset_card_of_nodup hnd, Finset.card_range]
    exact hlen
  have heq := Finset.eq_of_subset_of_card_le hsubset hcard
  have : i ∈ keys.toFinset := by
    rw [heq]
    exact Finset.mem_range.mpr hi
  exact List.mem_toFinset.mp this

theorem collectParts_complete (parts : List (Nat × Bytes)) (g : Nat → Bytes)
    (hval : ∀ p ∈ parts, p.2 = g p.1) :
    ∀ n, (∀ i, i < n → i ∈ parts.map Prod.fst) →
      collectParts parts n = some ((List.range n).map g) := by
  intro n
  induction n with
  | zero => intro _; simp [collectParts]
  | succ n ih =>
    intro hall
    have hn : n ∈ parts.map Prod.fst := hall n (by omega)
    obtain ⟨v, hv⟩ := lookupSeq_isSome_of_mem hn
    have hvg : v = g n := hval _ (lookupSeq_mem hv)
    rw [collectParts, ih (fun i hi => hall i (by omega)), hv, hvg,
      List.range_succ]
    simp

theorem map_range_add (f : Nat → Nat × Bytes) (E : Nat) :
    ∀ r : Nat, (List.range (E + r)).map f =
      (List.range E).map f ++ (List.range' E r).map f := by
  intro r
  induction r with
  | zero => simp
  | succ r ih =>
    have h1 : E + (r + 1) = (E + r) + 1 := by omega
    rw [h1, List.range_succ, List.map_append, ih, List.range'_1_concat]
    simp

end PiBridge

namespace PiBridge

/-! ## Unfolding lemmas for `handle_rpc_envelope` on scenario envelopes -/

theorem scEnv_inj {sid st : String} {fc : Nat → Nat} {fp : Nat → Nat → Bytes}
    {k i k' i' : Nat}
    (h : scEnv sid st fc fp k i = scEnv sid st fc fp k' i') : k = k' ∧ i = i' := by
  have h1 := congrArg Envelope.seq h
  have h2 := congrArg Envelope.frag_index h
  simp only [scEnv] at h1 h2
  exact ⟨by exact_mod_cast h1, by exact_mod_cast h2⟩

theorem parse_scEnv (sid st : String) (fc : Nat → Nat) (fp : Nat → Nat → Bytes)
    (k i : Nat) (hsid : sid ≠ "") (hst : st ∈ RPC_STREAMS) (hfc : 1 ≤ fc k)
    (hi : i < fc k) :
    parse_rpc_envelope (scEnv sid st fc fp k i) =
      some (sid, st, k, i, fc k, fp k i) := by
  have h4 : ¬((k : Int) < 0 ∨ (fc k : Int) ≤ 0 ∨ (i : Int) < 0 ∨
      (fc k : Int) ≤ (i : Int)) := by omega
  simp [parse_rpc_envelope, scEnv, FRAMED_PROTOCOL_VERSION, hsid, hst, h4]
  omega

theorem handle_scEnv_eq_core (cid sid st : String) (fc : Nat → Nat)
    (fp : Nat → Nat → Bytes) (k i : Nat) (s : RpcState)
    (hsid : sid ≠ "") (hst : st ∈ RPC_STREAMS) (hfc : 1 ≤ fc k) (hi : i < fc k)
    (hcall : s.rpc_call_id = some cid) (hproc : s.rpc_proc_live = true)
    (hsess : s.rpc_session_id = some sid) :
    handle_rpc_envelope cid (scEnv sid st fc fp k i) s =
      handle_rpc_core sid st k i (fc k) (fp k i) s := by
  rw [handle_rpc_envelope, parse_scEnv sid st fc fp k i hsid hst hfc hi]
  simp [hcall, hproc, hsess, optTruthy, hsid]

end PiBridge

namespace PiBridge

/-! ## Invariant preservation: fragment buffered, frame not yet complete -/

theorem stepWithEntry_inv_buffered (cid sid st : String) (N : Nat)
    (fc : Nat → Nat) (fp : Nat → Nat → Bytes) (P : List Envelope) (s : RpcState)
    (out : List (Nat × Bytes))
    (inv : ReassemblyInv cid sid st N fc fp P s out)
    (k i : Nat) (hk : k < N) (hi : i < fc k)
    (entry : FragEntry)
    (hec : entry.frag_count = fc k)
    (hnd : (entry.parts.map Prod.fst).Nodup)
    (hvals : ∀ q ∈ entry.parts, q.1 < fc k ∧ q.2 = fp k q.1)
    (hip : i ∉ entry.parts.map Prod.fst)
    (harr : k ∉ (s.rpc_in_pending st).map Prod.fst →
      ∀ i', i' < fc k → scEnv sid st fc fp k i' ∈ P → i' ∈ entry.parts.map Prod.fst)
    (hfull : (entry.parts ++ [(i, fp k i)]).length < fc k) :
    ReassemblyInv cid sid st N fc fp (P ++ [scEnv sid st fc fp k i])
      (stepWithEntry sid st k i (fc k) (fp k i) entry s).1
      (out ++ (stepWithEntry sid st k i (fc k) (fp k i) entry s).2) := by
  have hres : stepWithEntry sid st k i (fc k) (fp k i) entry s =
      ({ s with
          rpc_in_fragments :=
            Function.update s.rpc_in_fragments (st, k)
              (some ⟨fc k, entry.parts ++ [(i, fp k i)]⟩) },
        []) := by
    simp only [stepWithEntry]
    rw [if_pos hfull]
  have hcalleq : (stepWithEntry sid st k i (fc k) (fp k i) entry s).1.rpc_call_id =
      s.rpc_call_id := by rw [hres]
  have hproceq : (stepWithEntry sid st k i (fc k) (fp k i) entry s).1.rpc_proc_live =
      s.rpc_proc_live := by rw [hres]
  have hsesseq : (stepWithEntry sid st k i (fc k) (fp k i) entry s).1.rpc_session_id =
      s.rpc_session_id := by rw [hres]
  have hexpeq : (stepWithEntry sid st k i (fc k) (fp k i) entry s).1.rpc_in_expected_seq =
      s.rpc_in_expected_seq := by rw [hres]
  have hpendeq : (stepWithEntry sid st k i (fc k) (fp k i) entry s).1.rpc_in_pending =
      s.rpc_in_pending := by rw [hres]
  have hseeneq : (stepWithEntry sid st k i (fc k) (fp k i) entry s).1.rpc_seen =
      s.rpc_seen := by rw [hres]
  have hfrageq : (stepWithEntry sid st k i (fc k) (fp k i) entry s).1.rpc_in_fragments =
      Function.update s.rpc_in_fragments (st, k)
        (some ⟨fc k, entry.parts ++ [(i, fp k i)]⟩) := by rw [hres]
  have houtputeq : (stepWithEntry sid st k i (fc k) (fp k i) entry s).2 = [] := by
    rw [hres]
  have hnd' : ((entry.parts ++ [(i, fp k i)]).map Prod.fst).Nodup := by
    simp [List.nodup_append, hnd, hip]
  have hvals' : ∀ q ∈ entry.parts ++ [(i, fp k i)], q.1 < fc k ∧ q.2 = fp k q.1 := by
    intro q hq
    rcases List.mem_append.mp hq with hq | hq
    · exact hvals q hq
    · obtain rfl : q = (i, fp k i) := by simpa using hq
      exact ⟨hi, rfl⟩
  constructor
  · rw [hcalleq]; exact inv.hcall
  · rw [hproceq]; exact inv.hproc
  · rw [hsesseq]; exact inv.hsess
  · rw [hexpeq]; exact inv.hEle
  · rw [houtputeq, hexpeq]
    simpa using inv.hout
  · rw [hpendeq, hexpeq]; exact inv.hpend
  · rw [hpendeq]; exact inv.hpendnd
  · -- hfrag
    intro k' e' h'
    rw [hfrageq] at h'
    by_cases hkk : k' = k
    · subst hkk
      rw [Function.update_same] at h'
      obtain rfl := Option.some_inj.mp h'
      exact ⟨hk, rfl, hnd', hvals', hfull⟩
    · rw [Function.update_noteq (by simp [hkk])] at h'
      exact inv.hfrag k' e' h'
  · rw [hseeneq, hexpeq]; exact inv.hseen
  · rw [hseeneq]; exact inv.hseennd
  · -- htrack
    intro k' h1 h2 h3 i' hi' hmem
    rw [hexpeq] at h1
    rw [hpendeq] at h3
    rw [hfrageq]
    rcases List.mem_append.mp hmem with hmemP | hmemE
    · by_cases hkk : k' = k
      · subst hkk
        refine ⟨⟨fc k', entry.parts ++ [(i, fp k' i)]⟩, Function.update_same _ _ _, ?_⟩
        have := harr h3 i' hi' hmemP
        simp only [List.map_append, List.mem_append]
        exact Or.inl this
      · obtain ⟨e, he, hie⟩ := inv.htrack k' h1 h2 h3 i' hi' hmemP
        exact ⟨e, by rwa [Function.update_noteq (by simp [hkk])], hie⟩
    · have heq : scEnv sid st fc fp k' i' = scEnv sid st fc fp k i := by
        simpa using hmemE
      obtain ⟨rfl, rfl⟩ := scEnv_inj heq
      refine ⟨⟨fc k', entry.parts ++ [(i', fp k' i')]⟩, Function.update_same _ _ _, ?_⟩
      simp

end PiBridge

namespace PiBridge

/-! ## Invariant preservation: fragment set completes, frame already pending -/

theorem stepWithEntry_inv_complete_pending (cid sid st : String) (N : Nat)
    (fc : Nat → Nat) (fp : Nat → Nat → Bytes) (P : List Envelope) (s : RpcState)
    (out : List (Nat × Bytes))
    (inv : ReassemblyInv cid sid st N fc fp P s out)
    (hNle : N ≤ max_rpc_reorder_window + 1)
    (k i : Nat) (hk : k < N) (hi : i < fc k)
    (entry : FragEntry)
    (hnd : (entry.parts.map Prod.fst).Nodup)
    (hvals : ∀ q ∈ entry.parts, q.1 < fc k ∧ q.2 = fp k q.1)
    (hip : i ∉ entry.parts.map Prod.fst)
    (hlen : entry.parts.length < fc k)
    (hnfull : ¬ (entry.parts ++ [(i, fp k i)]).length < fc k)
    (hkp : hasKeySeq (s.rpc_in_pending st) k) :
    ReassemblyInv cid sid st N fc fp (P ++ [scEnv sid st fc fp k i])
      (stepWithEntry sid st k i (fc k) (fp k i) entry s).1
      (out ++ (stepWithEntry sid st k i (fc k) (fp k i) entry s).2) := by
  have hnd' : ((entry.parts ++ [(i, fp k i)]).map Prod.fst).Nodup := by
    simp [List.nodup_append, hnd, hip]
  have hvals' : ∀ q ∈ entry.parts ++ [(i, fp k i)], q.1 < fc k ∧ q.2 = fp k q.1 := by
    intro q hq
    rcases List.mem_append.mp hq with hq | hq
    · exact hvals q hq
    · obtain rfl : q = (i, fp k i) := by simpa using hq
      exact ⟨hi, rfl⟩
  have hkeys : ∀ j, j < fc k → j ∈ (entry.parts ++ [(i, fp k i)]).map Prod.fst := by
    apply keys_full hnd'
    · intro x hx
      obtain ⟨q, hq, rfl⟩ := List.mem_map.mp hx
      exact (hvals' q hq).1
    · rw [List.length_map]
      simp at hnfull ⊢
      omega
  have hcollect : collectParts (entry.parts ++ [(i, fp k i)]) (fc k) =
      some ((List.range (fc k)).map (fp k)) :=
    collectParts_complete _ (fp k) (fun q hq => (hvals' q hq).2) (fc k) hkeys
  obtain ⟨r, pend', heqd, hsub, hiff, hlookE, hcov⟩ :=
    drainPending_spec (asmPayload fc fp) (s.rpc_in_pending st)
      (s.rpc_in_expected_seq st) (fun p hp => (inv.hpend p hp).2.2)
  have hr0 : r = 0 := by
    by_contra hr
    have hEk := hcov (s.rpc_in_expected_seq st) le_rfl (by omega)
    obtain ⟨p, hp, hpe⟩ := List.mem_map.mp hEk
    have := (inv.hpend p hp).1
    omega
  subst hr0
  have hres : stepWithEntry sid st k i (fc k) (fp k i) entry s =
      ({ s with
          rpc_in_fragments :=
            Function.update (Function.update s.rpc_in_fragments (st, k)
              (some ⟨fc k, entry.parts ++ [(i, fp k i)]⟩)) (st, k) none
          rpc_in_pending := Function.update s.rpc_in_pending st pend'
          rpc_in_expected_seq := Function.update s.rpc_in_expected_seq st
            (s.rpc_in_expected_seq st + 0)
          rpc_seen := prune_rpc_seen sid st (s.rpc_in_expected_seq st + 0) s.rpc_seen },
        []) := by
    simp only [stepWithEntry, hcollect]
    rw [if_neg hnfull]
    rw [if_pos hkp]
    rw [heqd]
    simp
  have hprune : prune_rpc_seen sid st (s.rpc_in_expected_seq st + 0) s.rpc_seen =
      s.rpc_seen := by
    apply prune_noop
    have hbound := seen_length_le sid st (s.rpc_in_expected_seq st) s.rpc_seen
      inv.hseennd (fun x hx => (inv.hseen x).mp hx)
    have := inv.hEle
    have hw : max_rpc_reorder_window = 4096 := rfl
    omega
  have hcalleq : (stepWithEntry sid st k i (fc k) (fp k i) entry s).1.rpc_call_id =
      s.rpc_call_id := by rw [hres]
  have hproceq : (stepWithEntry sid st k i (fc k) (fp k i) entry s).1.rpc_proc_live =
      s.rpc_proc_live := by rw [hres]
  have hsesseq : (stepWithEntry sid st k i (fc k) (fp k i) entry s).1.rpc_session_id =
      s.rpc_session_id := by rw [hres]
  have hexpeq : (stepWithEntry sid st k i (fc k) (fp k i) entry s).1.rpc_in_expected_seq st =
      s.rpc_in_expected_seq st := by
    rw [hres]
    show Function.update s.rpc_in_expected_seq st (s.rpc_in_expected_seq st + 0) st = _
    rw [Function.update_same]
    omega
  have hpendeq : (stepWithEntry sid st k i (fc k) (fp k i) entry s).1.rpc_in_pending st =
      pend' := by
    rw [hres]
    show Function.update s.rpc_in_pending st pend' st = _
    rw [Function.update_same]
  have hseeneq : (stepWithEntry sid st k i (fc k) (fp k i) entry s).1.rpc_seen =
      s.rpc_seen := by
    rw [hres]
    show prune_rpc_seen sid st (s.rpc_in_expected_seq st + 0) s.rpc_seen = _
    exact hprune
  have hfrageq : (stepWithEntry sid st k i (fc k) (fp k i) entry s).1.rpc_in_fragments =
      Function.update (Function.update s.rpc_in_fragments (st, k)
        (some ⟨fc k, entry.parts ++ [(i, fp k i)]⟩)) (st, k) none := by rw [hres]
  have houtputeq : (stepWithEntry sid st k i (fc k) (fp k i) entry s).2 = [] := by
    rw [hres]
  have hpendmem : ∀ x : Nat × Bytes, x ∈ pend' ↔ x ∈ s.rpc_in_pending st := by
    intro x
    rw [hiff]
    constructor
    · exact fun h => h.1
    · intro h; exact ⟨h, by omega⟩
  constructor
  · rw [hcalleq]; exact inv.hcall
  · rw [hproceq]; exact inv.hproc
  · rw [hsesseq]; exact inv.hsess
  · rw [hexpeq]; exact inv.hEle
  · rw [houtputeq, hexpeq]
    simpa using inv.hout
  · rw [hpendeq, hexpeq]
    intro p hp
    exact inv.hpend p ((hpendmem p).mp hp)
  · rw [hpendeq]
    exact List.Nodup.sublist (List.Sublist.map Prod.fst hsub) inv.hpendnd
  · -- hfrag
    intro k' e' h'
    rw [hfrageq] at h'
    by_cases hkk : k' = k
    · subst hkk
      rw [Function.update_same] at h'
      cases h'
    · rw [Function.update_noteq (by simp [hkk]),
        Function.update_noteq (by simp [hkk])] at h'
      exact inv.hfrag k' e' h'
  · rw [hseeneq, hexpeq]; exact inv.hseen
  · rw [hseeneq]; exact inv.hseennd
  · -- htrack
    intro k' h1 h2 h3 i' hi' hmem
    rw [hexpeq] at h1
    rw [hpendeq] at h3
    rw [hfrageq]
    have h3' : k' ∉ (s.rpc_in_pending st).map Prod.fst := by
      intro hc
      obtain ⟨p, hp, hpe⟩ := List.mem_map.mp hc
      exact h3 (List.mem_map.mpr ⟨p, (hpendmem p).mpr hp, hpe⟩)
    by_cases hkk : k' = k
    · exfalso
      subst hkk
      exact h3' hkp
    · rcases List.mem_append.mp hmem with hmemP | hmemE
      · obtain ⟨e, he, hie⟩ := inv.htrack k' h1 h2 h3' i' hi' hmemP
        refine ⟨e, ?_, hie⟩
        rw [Function.update_noteq (by simp [hkk]),
          Function.update_noteq (by simp [hkk])]
        exact he
      · have heq : scEnv sid st fc fp k' i' = scEnv sid st fc fp k i := by
          simpa using hmemE
        exact absurd (scEnv_inj heq).1 hkk

end PiBridge

namespace PiBridge

/-! ## Invariant preservation: fragment set completes, frame newly pending -/

theorem stepWithEntry_inv_complete_fresh (cid sid st : String) (N : Nat)
    (fc : Nat → Nat) (fp : Nat → Nat → Bytes) (P : List Envelope) (s : RpcState)
    (out : List (Nat × Bytes))
    (inv : ReassemblyInv cid sid st N fc fp P s out)
    (hNle : N ≤ max_rpc_reorder_window + 1)
    (k i : Nat) (hk : k < N) (hi : i < fc k)
    (hkE : s.rpc_in_expected_seq st ≤ k)
    (entry : FragEntry)
    (hnd : (entry.parts.map Prod.fst).Nodup)
    (hvals : ∀ q ∈ entry.parts, q.1 < fc k ∧ q.2 = fp k q.1)
    (hip : i ∉ entry.parts.map Prod.fst)
    (hlen : entry.parts.length < fc k)
    (hnfull : ¬ (entry.parts ++ [(i, fp k i)]).length < fc k)
    (hkp : ¬ hasKeySeq (s.rpc_in_pending st) k) :
    ReassemblyInv cid sid st N fc fp (P ++ [scEnv sid st fc fp k i])
      (stepWithEntry sid st k i (fc k) (fp k i) entry s).1
      (out ++ (stepWithEntry sid st k i (fc k) (fp k i) entry s).2) := by
  have hnd' : ((entry.parts ++ [(i, fp k i)]).map Prod.fst).Nodup := by
    simp [List.nodup_append, hnd, hip]
  have hvals' : ∀ q ∈ entry.parts ++ [(i, fp k i)], q.1 < fc k ∧ q.2 = fp k q.1 := by
    intro q hq
    rcases List.mem_append.mp hq with hq | hq
    · exact hvals q hq
    · obtain rfl : q = (i, fp k i) := by simpa using hq
      exact ⟨hi, rfl⟩
  have hkeys : ∀ j, j < fc k → j ∈ (entry.parts ++ [(i, fp k i)]).map Prod.fst := by
    apply keys_full hnd'
    · intro x hx
      obtain ⟨q, hq, rfl⟩ := List.mem_map.mp hx
      exact (hvals' q hq).1
    · rw [List.length_map]
      simp at hnfull ⊢
      omega
  have hcollect : collectParts (entry.parts ++ [(i, fp k i)]) (fc k) =
      some ((List.range (fc k)).map (fp k)) :=
    collectParts_complete _ (fp k) (fun q hq => (hvals' q hq).2) (fc k) hkeys
  have hknotin : k ∉ (s.rpc_in_pending st).map Prod.fst := hkp
  have hl'val : ∀ p ∈ s.rpc_in_pending st ++ [(k, asmPayload fc fp k)],
      p.2 = asmPayload fc fp p.1 := by
    intro p hp
    rcases List.mem_append.mp hp with hp | hp
    · exact (inv.hpend p hp).2.2
    · obtain rfl : p = (k, asmPayload fc fp k) := by simpa using hp
      rfl
  have hl'nd : (((s.rpc_in_pending st) ++ [(k, asmPayload fc fp k)]).map Prod.fst).Nodup := by
    simp [List.nodup_append, inv.hpendnd, hknotin]
  obtain ⟨r, pend', heqd, hsub, hiff, hlookE, hcov⟩ :=
    drainPending_spec (asmPayload fc fp)
      (s.rpc_in_pending st ++ [(k, asmPayload fc fp k)])
      (s.rpc_in_expected_seq st) hl'val
  have hres : stepWithEntry sid st k i (fc k) (fp k i) entry s =
      ({ s with
          rpc_in_fragments :=
            Function.update (Function.update s.rpc_in_fragments (st, k)
              (some ⟨fc k, entry.parts ++ [(i, fp k i)]⟩)) (st, k) none
          rpc_in_pending := Function.update s.rpc_in_pending st pend'
          rpc_in_expected_seq := Function.update s.rpc_in_expected_seq st
            (s.rpc_in_expected_seq st + r)
          rpc_seen := prune_rpc_seen sid st (s.rpc_in_expected_seq st + r)
            (((List.range' (s.rpc_in_expected_seq st) r).map
                (fun j => (j, asmPayload fc fp j))).foldl
              (fun acc rr => insertSeen (sid, st, rr.1) acc) s.rpc_seen) },
        (List.range' (s.rpc_in_expected_seq st) r).map
          (fun j => (j, asmPayload fc fp j))) := by
    simp only [stepWithEntry, hcollect]
    rw [if_neg hnfull]
    rw [if_neg hkp]
    rw [show ((List.range (fc k)).map (fp k)).flatten = asmPayload fc fp k from rfl]
    rw [heqd]
  have hseenlen : s.rpc_seen.length ≤ s.rpc_in_expected_seq st :=
    seen_length_le sid st (s.rpc_in_expected_seq st) s.rpc_seen inv.hseennd
      (fun x hx => (inv.hseen x).mp hx)
  have hEleN : s.rpc_in_expected_seq st + r ≤ N := by
    rcases Nat.eq_zero_or_pos r with hr | hr
    · have := inv.hEle
      omega
    · have hj := hcov (s.rpc_in_expected_seq st + r - 1) (by omega) (by omega)
      obtain ⟨p, hp, hpe⟩ := List.mem_map.mp hj
      rcases List.mem_append.mp hp with hp | hp
      · have := (inv.hpend p hp).2.1
        omega
      · obtain rfl : p = (k, asmPayload fc fp k) := by simpa using hp
        simp only at hpe
        omega
  have hfold := mem_foldl_insertSeen (fun rr => (sid, st, rr.1))
    ((List.range' (s.rpc_in_expected_seq st) r).map (fun j => (j, asmPayload fc fp j)))
    s.rpc_seen
  have hfoldlen := length_foldl_insertSeen (fun rr => (sid, st, rr.1))
    ((List.range' (s.rpc_in_expected_seq st) r).map (fun j => (j, asmPayload fc fp j)))
    s.rpc_seen
  have hreadylen : ((List.range' (s.rpc_in_expected_seq st) r).map
      (fun j => (j, asmPayload fc fp j))).length = r := by
    rw [List.length_map, List.length_range']
  have hprune : prune_rpc_seen sid st (s.rpc_in_expected_seq st + r)
      (((List.range' (s.rpc_in_expected_seq st) r).map
          (fun j => (j, asmPayload fc fp j))).foldl
        (fun acc rr => insertSeen (sid, st, rr.1) acc) s.rpc_seen) =
      ((List.range' (s.rpc_in_expected_seq st) r).map
          (fun j => (j, asmPayload fc fp j))).foldl
        (fun acc rr => insertSeen (sid, st, rr.1) acc) s.rpc_seen := by
    apply prune_noop
    have hw : max_rpc_reorder_window = 4096 := rfl
    rw [hreadylen] at hfoldlen
    omega
  have hcalleq : (stepWithEntry sid st k i (fc k) (fp k i) entry s).1.rpc_call_id =
      s.rpc_call_id := by rw [hres]
  have hproceq : (stepWithEntry sid st k i (fc k) (fp k i) entry s).1.rpc_proc_live =
      s.rpc_proc_live := by rw [hres]
  have hsesseq : (stepWithEntry sid st k i (fc k) (fp k i) entry s).1.rpc_session_id =
      s.rpc_session_id := by rw [hres]
  have hexpeq : (stepWithEntry sid st k i (fc k) (fp k i) entry s).1.rpc_in_expected_seq st =
      s.rpc_in_expected_seq st + r := by
    rw [hres]
    show Function.update s.rpc_in_expected_seq st (s.rpc_in_expected_seq st + r) st = _
    rw [Function.update_same]
  have hpendeq : (stepWithEntry sid st k i (fc k) (fp k i) entry s).1.rpc_in_pending st =
      pend' := by
    rw [hres]
    show Function.update s.rpc_in_pending st pend' st = _
    rw [Function.update_same]
  have hseeneq : (stepWithEntry sid st k i (fc k) (fp k i) entry s).1.rpc_seen =
      ((List.range' (s.rpc_in_expected_seq st) r).map
          (fun j => (j, asmPayload fc fp j))).foldl
        (fun acc rr => insertSeen (sid, st, rr.1) acc) s.rpc_seen := by
    rw [hres]
    exact hprune
  have hfrageq : (stepWithEntry sid st k i (fc k) (fp k i) entry s).1.rpc_in_fragments =
      Function.update (Function.update s.rpc_in_fragments (st, k)
        (some ⟨fc k, entry.parts ++ [(i, fp k i)]⟩)) (st, k) none := by rw [hres]
  have houtputeq : (stepWithEntry sid st k i (fc k) (fp k i) entry s).2 =
      (List.range' (s.rpc_in_expected_seq st) r).map
        (fun j => (j, asmPayload fc fp j)) := by rw [hres]
  constructor
  · rw [hcalleq]; exact inv.hcall
  · rw [hproceq]; exact inv.hproc
  · rw [hsesseq]; exact inv.hsess
  · rw [hexpeq]; exact hEleN
  · rw [houtputeq, hexpeq, inv.hout, map_range_add]
  · -- hpend
    rw [hpendeq, hexpeq]
    intro p hp
    obtain ⟨hpl, hpwin⟩ := (hiff p).mp hp
    have hval := hl'val p hpl
    have hge : s.rpc_in_expected_seq st ≤ p.1 ∧ p.1 < N := by
      rcases List.mem_append.mp hpl with h | h
      · have := inv.hpend p h
        exact ⟨by omega, this.2.1⟩
      · obtain rfl : p = (k, asmPayload fc fp k) := by simpa using h
        exact ⟨hkE, hk⟩
    have hne : p.1 ≠ s.rpc_in_expected_seq st + r := by
      intro he
      rw [lookupSeq_eq_none_iff] at hlookE
      exact hlookE (List.mem_map.mpr ⟨p, hpl, he⟩)
    exact ⟨by omega, hge.2, hval⟩
  · -- hpendnd
    rw [hpendeq]
    exact List.Nodup.sublist (List.Sublist.map Prod.fst hsub) hl'nd
  · -- hfrag
    intro k' e' h'
    rw [hfrageq] at h'
    by_cases hkk : k' = k
    · subst hkk
      rw [Function.update_same] at h'
      cases h'
    · rw [Function.update_noteq (by simp [hkk]),
        Function.update_noteq (by simp [hkk])] at h'
      exact inv.hfrag k' e' h'
  · -- hseen
    intro x
    rw [hseeneq, hexpeq, hfold]
    constructor
    · rintro (hx | ⟨rr, hrr, rfl⟩)
      · obtain ⟨j, hj, rfl⟩ := (inv.hseen x).mp hx
        exact ⟨j, by omega, rfl⟩
      · obtain ⟨j, hjmem, rfl⟩ := List.mem_map.mp hrr
        have hjr := List.mem_range'_1.mp hjmem
        exact ⟨j, by omega, rfl⟩
    · rintro ⟨j, hj, rfl⟩
      by_cases hjE : j < s.rpc_in_expected_seq st
      · exact Or.inl ((inv.hseen _).mpr ⟨j, hjE, rfl⟩)
      · refine Or.inr ⟨(j, asmPayload fc fp j), ?_, rfl⟩
        exact List.mem_map.mpr ⟨j, List.mem_range'_1.mpr ⟨by omega, by omega⟩, rfl⟩
  · -- hseennd
    rw [hseeneq]
    exact nodup_foldl_insertSeen _ _ _ inv.hseennd
  · -- htrack
    intro k' h1 h2 h3 i' hi' hmem
    rw [hexpeq] at h1
    rw [hpendeq] at h3
    rw [hfrageq]
    by_cases hkk : k' = k
    · exfalso
      subst hkk
      have hkl' : (k', asmPayload fc fp k') ∈
          s.rpc_in_pending st ++ [(k', asmPayload fc fp k')] := by simp
      have : (k', asmPayload fc fp k') ∈ pend' :=
        (hiff _).mpr ⟨hkl', by simp only; omega⟩
      exact h3 (List.mem_map.mpr ⟨_, this, rfl⟩)
    · rcases List.mem_append.mp hmem with hmemP | hmemE
      · have h3' : k' ∉ (s.rpc_in_pending st).map Prod.fst := by
          intro hc
          obtain ⟨p, hp, hpe⟩ := List.mem_map.mp hc
          have hpl' : p ∈ s.rpc_in_pending st ++ [(k, asmPayload fc fp k)] :=
            List.mem_append.mpr (Or.inl hp)
          have : p ∈ pend' := (hiff p).mpr ⟨hpl', by omega⟩
          exact h3 (List.mem_map.mpr ⟨p, this, hpe⟩)
        obtain ⟨e, he, hie⟩ := inv.htrack k' (by omega) h2 h3' i' hi' hmemP
        refine ⟨e, ?_, hie⟩
        rw [Function.update_noteq (by simp [hkk]),
          Function.update_noteq (by simp [hkk])]
        exact he
      · have heq : scEnv sid st fc fp k' i' = scEnv sid st fc fp k i := by
          simpa using hmemE
        exact absurd (scEnv_inj heq).1 hkk

end PiBridge

namespace PiBridge

/-! ## Invariant preservation across one `handle_rpc_core` call -/

theorem core_step_inv (cid sid st : String) (N : Nat) (fc : Nat → Nat)
    (fp : Nat → Nat → Bytes) (P : List Envelope) (s : RpcState)
    (out : List (Nat × Bytes))
    (inv : ReassemblyInv cid sid st N fc fp P s out)
    (hNle : N ≤ max_rpc_reorder_window + 1)
    (k i : Nat) (hk : k < N) (hi : i < fc k) :
    ReassemblyInv cid sid st N fc fp (P ++ [scEnv sid st fc fp k i])
      (handle_rpc_core sid st k i (fc k) (fp k i) s).1
      (out ++ (handle_rpc_core sid st k i (fc k) (fp k i) s).2) := by
  by_cases hkE : k < s.rpc_in_expected_seq st
  · -- duplicate of an already-delivered frame: dedupe check fires
    have hkseen : (sid, st, k) ∈ s.rpc_seen := (inv.hseen _).mpr ⟨k, hkE, rfl⟩
    have hres : handle_rpc_core sid st k i (fc k) (fp k i) s = (s, []) := by
      simp only [handle_rpc_core]
      rw [if_pos hkseen]
    rw [hres]
    refine ⟨inv.hcall, inv.hproc, inv.hsess, inv.hEle, by simpa using inv.hout,
      inv.hpend, inv.hpendnd, inv.hfrag, inv.hseen, inv.hseennd, ?_⟩
    intro k' h1 h2 h3 i' hi' hmem
    rcases List.mem_append.mp hmem with hmemP | hmemE
    · exact inv.htrack k' h1 h2 h3 i' hi' hmemP
    · have heq : scEnv sid st fc fp k' i' = scEnv sid st fc fp k i := by
        simpa using hmemE
      have h1' : s.rpc_in_expected_seq st ≤ k' := h1
      have := (scEnv_inj heq).1
      omega
  · -- fresh or in-flight sequence: buffered through the fragment machinery
    have hnseen : (sid, st, k) ∉ s.rpc_seen := by
      intro hmem
      obtain ⟨j, hj, hx⟩ := (inv.hseen _).mp hmem
      have : k = j := by
        have := congrArg (fun t : String × String × Nat => t.2.2) hx
        simpa using this
      omega
    have hwin : ¬ (max_rpc_reorder_window < k - s.rpc_in_expected_seq st) := by
      have hw : max_rpc_reorder_window = 4096 := rfl
      omega
    cases hent : s.rpc_in_fragments (st, k) with
    | none =>
      have harr : k ∉ (s.rpc_in_pending st).map Prod.fst →
          ∀ i', i' < fc k → scEnv sid st fc fp k i' ∈ P →
            i' ∈ (⟨fc k, []⟩ : FragEntry).parts.map Prod.fst := by
        intro h3 i' hi' hmem
        obtain ⟨e, he, -⟩ := inv.htrack k (by omega) hk h3 i' hi' hmem
        rw [hent] at he
        cases he
      have hres : handle_rpc_core sid st k i (fc k) (fp k i) s =
          stepWithEntry sid st k i (fc k) (fp k i) ⟨fc k, []⟩ s := by
        simp only [handle_rpc_core]
        rw [if_neg hnseen, if_neg hkE, if_neg hwin, hent]
      rw [hres]
      by_cases hfull : ((⟨fc k, []⟩ : FragEntry).parts ++ [(i, fp k i)]).length < fc k
      · exact stepWithEntry_inv_buffered cid sid st N fc fp P s out inv k i hk hi
          ⟨fc k, []⟩ rfl (by simp) (by simp) (by simp) harr hfull
      · by_cases hkp : hasKeySeq (s.rpc_in_pending st) k
        · exact stepWithEntry_inv_complete_pending cid sid st N fc fp P s out inv hNle
            k i hk hi ⟨fc k, []⟩ (by simp) (by simp) (by simp) (by simp; omega)
            hfull hkp
        · exact stepWithEntry_inv_complete_fresh cid sid st N fc fp P s out inv hNle
            k i hk hi (by omega) ⟨fc k, []⟩ (by simp) (by simp) (by simp)
            (by simp; omega) hfull hkp
    | some entry =>
      obtain ⟨hkN', hec, hndE, hvalsE, hlenE⟩ := inv.hfrag k entry hent
      have hne : ¬ (entry.frag_count ≠ fc k) := by rw [hec]; simp
      by_cases hip : i ∈ entry.parts.map Prod.fst
      · -- duplicate fragment of an in-flight sequence: dropped
        have hres : handle_rpc_core sid st k i (fc k) (fp k i) s = (s, []) := by
          simp only [handle_rpc_core, hent]
          rw [if_neg hnseen, if_neg hkE, if_neg hwin]
          rw [if_neg hne, if_pos hip]
        rw [hres]
        refine ⟨inv.hcall, inv.hproc, inv.hsess, inv.hEle, by simpa using inv.hout,
          inv.hpend, inv.hpendnd, inv.hfrag, inv.hseen, inv.hseennd, ?_⟩
        intro k' h1 h2 h3 i' hi' hmem
        rcases List.mem_append.mp hmem with hmemP | hmemE
        · exact inv.htrack k' h1 h2 h3 i' hi' hmemP
        · have heq : scEnv sid st fc fp k' i' = scEnv sid st fc fp k i := by
            simpa using hmemE
          obtain ⟨rfl, rfl⟩ := scEnv_inj heq
          exact ⟨entry, hent, hip⟩
      · have harr : k ∉ (s.rpc_in_pending st).map Prod.fst →
            ∀ i', i' < fc k → scEnv sid st fc fp k i' ∈ P →
              i' ∈ entry.parts.map Prod.fst := by
          intro h3 i' hi' hmem
          obtain ⟨e, he, hie⟩ := inv.htrack k (by omega) hk h3 i' hi' hmem
          rw [hent] at he
          obtain rfl := Option.some_inj.mp he
          exact hie
        have hres : handle_rpc_core sid st k i (fc k) (fp k i) s =
            stepWithEntry sid st k i (fc k) (fp k i) entry s := by
          simp only [handle_rpc_core, hent]
          rw [if_neg hnseen, if_neg hkE, if_neg hwin]
          rw [if_neg hne, if_neg hip]
        rw [hres]
        by_cases hfull : (entry.parts ++ [(i, fp k i)]).length < fc k
        · exact stepWithEntry_inv_buffered cid sid st N fc fp P s out inv k i hk hi
            entry hec hndE hvalsE hip harr hfull
        · by_cases hkp : hasKeySeq (s.rpc_in_pending st) k
          · exact stepWithEntry_inv_complete_pending cid sid st N fc fp P s out inv
              hNle k i hk hi entry hndE hvalsE hip hlenE hfull hkp
          · exact stepWithEntry_inv_complete_fresh cid sid st N fc fp P s out inv
              hNle k i hk hi (by omega) entry hndE hvalsE hip hlenE hfull hkp

end PiBridge

namespace PiBridge

/-! ## Invariant across whole arrival lists -/

theorem handle_step_inv (cid sid st : String) (N : Nat) (fc : Nat → Nat)
    (fp : Nat → Nat → Bytes) (P : List Envelope) (s : RpcState)
    (out : List (Nat × Bytes))
    (hsid : sid ≠ "") (hst : st ∈ RPC_STREAMS)
    (hfcall : ∀ k, k < N → 1 ≤ fc k) (hNle : N ≤ max_rpc_reorder_window + 1)
    (inv : ReassemblyInv cid sid st N fc fp P s out)
    (k i : Nat) (hk : k < N) (hi : i < fc k) :
    ReassemblyInv cid sid st N fc fp (P ++ [scEnv sid st fc fp k i])
      (handle_rpc_envelope cid (scEnv sid st fc fp k i) s).1
      (out ++ (handle_rpc_envelope cid (scEnv sid st fc fp k i) s).2) := by
  rw [handle_scEnv_eq_core cid sid st fc fp k i s hsid hst (hfcall k hk) hi
    inv.hcall inv.hproc inv.hsess]
  exact core_step_inv cid sid st N fc fp P s out inv hNle k i hk hi

theorem processAll_acc (cid : String) :
    ∀ (lst : List Envelope) (s : RpcState) (a0 : List (Nat × Bytes)),
      lst.foldl (fun acc e =>
        let step := handle_rpc_envelope cid e acc.1
        (step.1, acc.2 ++ step.2)) (s, a0) =
      ((processAll cid lst s).1, a0 ++ (processAll cid lst s).2) := by
  intro lst
  induction lst with
  | nil => intro s a0; simp [processAll]
  | cons e rest ih =>
    intro s a0
    have hPc : processAll cid (e :: rest) s =
        ((processAll cid rest (handle_rpc_envelope cid e s).1).1,
          (handle_rpc_envelope cid e s).2 ++
            (processAll cid rest (handle_rpc_envelope cid e s).1).2) := by
      show (e :: rest).foldl _ (s, []) = _
      rw [List.foldl_cons]
      show rest.foldl _ ((handle_rpc_envelope cid e s).1,
        [] ++ (handle_rpc_envelope cid e s).2) = _
      rw [ih]
      simp
    rw [List.foldl_cons]
    show rest.foldl _ ((handle_rpc_envelope cid e s).1,
      a0 ++ (handle_rpc_envelope cid e s).2) = _
    rw [ih, hPc]
    simp

theorem processAll_cons (cid : String) (e : Envelope) (rest : List Envelope)
    (s : RpcState) :
    processAll cid (e :: rest) s =
      ((processAll cid rest (handle_rpc_envelope cid e s).1).1,
        (handle_rpc_envelope cid e s).2 ++
          (processAll cid rest (handle_rpc_envelope cid e s).1).2) := by
  show (e :: rest).foldl _ (s, []) = _
  rw [List.foldl_cons]
  show rest.foldl _ ((handle_rpc_envelope cid e s).1,
    [] ++ (handle_rpc_envelope cid e s).2) = _
  rw [processAll_acc]
  simp

theorem processAll_inv (cid sid st : String) (N : Nat) (fc : Nat → Nat)
    (fp : Nat → Nat → Bytes)
    (hsid : sid ≠ "") (hst : st ∈ RPC_STREAMS)
    (hfcall : ∀ k, k < N → 1 ≤ fc k) (hNle : N ≤ max_rpc_reorder_window + 1) :
    ∀ (L P : List Envelope) (s : RpcState) (out : List (Nat × Bytes)),
      ReassemblyInv cid sid st N fc fp P s out →
      (∀ e ∈ L, ∃ k i, k < N ∧ i < fc k ∧ e = scEnv sid st fc fp k i) →
      ReassemblyInv cid sid st N fc fp (P ++ L) (processAll cid L s).1
        (out ++ (processAll cid L s).2) := by
  intro L
  induction L with
  | nil =>
    intro P s out inv _
    simpa [processAll] using inv
  | cons e rest ih =>
    intro P s out inv hL
    obtain ⟨k, i, hk, hi, rfl⟩ := hL e (by simp)
    have hstep := handle_step_inv cid sid st N fc fp P s out hsid hst hfcall hNle
      inv k i hk hi
    have hrest := ih (P ++ [scEnv sid st fc fp k i])
      (handle_rpc_envelope cid (scEnv sid st fc fp k i) s).1
      (out ++ (handle_rpc_envelope cid (scEnv sid st fc fp k i) s).2) hstep
      (fun e' he' => hL e' (by simp [he']))
    rw [processAll_cons]
    have hlist : P ++ [scEnv sid st fc fp k i] ++ rest =
        P ++ (scEnv sid st fc fp k i :: rest) := by simp
    rw [hlist] at hrest
    simpa using hrest

theorem init_inv (cid sid st : String) (N : Nat) (fc : Nat → Nat)
    (fp : Nat → Nat → Bytes) :
    ReassemblyInv cid sid st N fc fp [] (initRpcState cid sid) [] := by
  have h0 : (initRpcState cid sid).rpc_in_expected_seq st = 0 := rfl
  refine ⟨rfl, rfl, rfl, by rw [h0]; omega, by rw [h0]; simp, ?_, by simp [initRpcState,
    reset_rpc_session_state], ?_, ?_, ?_, ?_⟩
  · intro p hp
    simp [initRpcState, reset_rpc_session_state] at hp
  · intro k e h
    simp [initRpcState, reset_rpc_session_state] at h
  · intro x
    simp [initRpcState, reset_rpc_session_state]
  · simp [initRpcState, reset_rpc_session_state]
  · intro k h1 h2 h3 i hi hmem
    simp at hmem

theorem final_expected_eq (cid sid st : String) (N : Nat) (fc : Nat → Nat)
    (fp : Nat → Nat → Bytes) (L : List Envelope) (s : RpcState)
    (out : List (Nat × Bytes)) (hfcall : ∀ k, k < N → 1 ≤ fc k)
    (inv : ReassemblyInv cid sid st N fc fp L s out)
    (hcover : ∀ k i, k < N → i < fc k → scEnv sid st fc fp k i ∈ L) :
    s.rpc_in_expected_seq st = N := by
  by_contra hne
  have hlt : s.rpc_in_expected_seq st < N := lt_of_le_of_ne inv.hEle hne
  have hEp : s.rpc_in_expected_seq st ∉ (s.rpc_in_pending st).map Prod.fst := by
    intro hc
    obtain ⟨p, hp, hpe⟩ := List.mem_map.mp hc
    have := (inv.hpend p hp).1
    omega
  have h0 : 0 < fc (s.rpc_in_expected_seq st) := hfcall _ hlt
  have hallparts : ∀ i, i < fc (s.rpc_in_expected_seq st) →
      ∃ e, s.rpc_in_fragments (st, s.rpc_in_expected_seq st) = some e ∧
        i ∈ e.parts.map Prod.fst :=
    fun i hi => inv.htrack _ le_rfl hlt hEp i hi (hcover _ i hlt hi)
  obtain ⟨e0, he0, -⟩ := hallparts 0 h0
  obtain ⟨hEN, hec, hnd, hvals, hlen⟩ := inv.hfrag _ e0 he0
  have hall0 : ∀ i, i < fc (s.rpc_in_expected_seq st) → i ∈ e0.parts.map Prod.fst := by
    intro i hi
    obtain ⟨e1, he1, hie⟩ := hallparts i hi
    rw [he0] at he1
    obtain rfl := Option.some_inj.mp he1
    exact hie
  have hsubset : List.range (fc (s.rpc_in_expected_seq st)) ⊆ e0.parts.map Prod.fst :=
    fun i hi => hall0 i (List.mem_range.mp hi)
  have hsublen := (List.subperm_of_subset (List.nodup_range _) hsubset).length_le
  simp at hsublen
  omega

end PiBridge

namespace PiBridge

/-- Claim C1, amended: for every `N` up to the reorder window plus one and
every arrival order of a complete, valid envelope set for sequences
`0..N-1` on one stream of the bound session — any permutation, with
arbitrary duplication — the engine delivers each assembled payload to the
application layer exactly once, strictly in order `0, 1, ..., N-1`.  (As
stated, without the window bound, the claim fails: see the
counterexample.) -/
theorem C1_exactly_once_in_order (cid sid st : String) (N : Nat) (fc : Nat → Nat)
    (fp : Nat → Nat → Bytes) (L : List Envelope)
    (hsid : sid ≠ "") (hst : st ∈ RPC_STREAMS)
    (hfcall : ∀ k, k < N → 1 ≤ fc k)
    (hNle : N ≤ max_rpc_reorder_window + 1)
    (harrv : completeArrival sid st fc fp N L) :
    (processAll cid L (initRpcState cid sid)).2 =
      (List.range N).map fun k => (k, asmPayload fc fp k) := by
  have hfin := processAll_inv cid sid st N fc fp hsid hst hfcall hNle L []
    (initRpcState cid sid) [] (init_inv cid sid st N fc fp) harrv.1
  simp only [List.nil_append] at hfin
  have hE := final_expected_eq cid sid st N fc fp L _ _ hfcall hfin harrv.2
  have hout := hfin.hout
  rw [hE] at hout
  exact hout

/-- Witness for the amended C1 at a one-frame scenario. -/
theorem C1_exactly_once_in_order_witness :
    (processAll "c" [scEnv "s" "rpc_event" (fun _ => 1) (fun _ _ => [7]) 0 0]
        (initRpcState "c" "s")).2 =
      (List.range 1).map fun k =>
        (k, asmPayload (fun _ => 1) (fun _ _ => [7]) k) :=
  C1_exactly_once_in_order "c" "s" "rpc_event" 1 (fun _ => 1) (fun _ _ => [7])
    [scEnv "s" "rpc_event" (fun _ => 1) (fun _ _ => [7]) 0 0]
    (by decide) (by decide) (fun k _ => le_rfl) (by decide)
    ⟨fun e he => ⟨0, 0, by decide, by decide, by simpa using he⟩,
      fun s i hs hi => by
        obtain rfl : s = 0 := by omega
        obtain rfl : i = 0 := by
          have : i < 1 := hi
          omega
        simp⟩

/-- Claim C6: after a complete valid arrival for `0..N-1` has been fully
processed, resubmitting any envelope of an already-delivered `(stream, seq)`
is a no-op: the engine state is unchanged and nothing is delivered to the
application layer (and no error arises — `handle_rpc_envelope` is total). -/
theorem C6_idempotent_redelivery (cid sid st : String) (N : Nat) (fc : Nat → Nat)
    (fp : Nat → Nat → Bytes) (L : List Envelope)
    (hsid : sid ≠ "") (hst : st ∈ RPC_STREAMS)
    (hfcall : ∀ k, k < N → 1 ≤ fc k)
    (hNle : N ≤ max_rpc_reorder_window + 1)
    (harrv : completeArrival sid st fc fp N L)
    (k i : Nat) (hk : k < N) (hi : i < fc k) :
    handle_rpc_envelope cid (scEnv sid st fc fp k i)
        (processAll cid L (initRpcState cid sid)).1 =
      ((processAll cid L (initRpcState cid sid)).1, []) := by
  have hfin := processAll_inv cid sid st N fc fp hsid hst hfcall hNle L []
    (initRpcState cid sid) [] (init_inv cid sid st N fc fp) harrv.1
  simp only [List.nil_append] at hfin
  have hE := final_expected_eq cid sid st N fc fp L _ _ hfcall hfin harrv.2
  have hkseen : (sid, st, k) ∈ (processAll cid L (initRpcState cid sid)).1.rpc_seen :=
    (hfin.hseen _).mpr ⟨k, by rw [hE]; omega, rfl⟩
  rw [handle_scEnv_eq_core cid sid st fc fp k i _ hsid hst (hfcall k hk) hi
    hfin.hcall hfin.hproc hfin.hsess]
  simp only [handle_rpc_core]
  rw [if_pos hkseen]

/-- Witness for C6: replaying the single delivered envelope. -/
theorem C6_idempotent_redelivery_witness :
    handle_rpc_envelope "c" (scEnv "s" "rpc_event" (fun _ => 1) (fun _ _ => [7]) 0 0)
        (processAll "c" [scEnv "s" "rpc_event" (fun _ => 1) (fun _ _ => [7]) 0 0]
          (initRpcState "c" "s")).1 =
      ((processAll "c" [scEnv "s" "rpc_event" (fun _ => 1) (fun _ _ => [7]) 0 0]
          (initRpcState "c" "s")).1, []) :=
  C6_idempotent_redelivery "c" "s" "rpc_event" 1 (fun _ => 1) (fun _ _ => [7])
    [scEnv "s" "rpc_event" (fun _ => 1) (fun _ _ => [7]) 0 0]
    (by decide) (by decide) (fun k _ => le_rfl) (by decide)
    ⟨fun e he => ⟨0, 0, by decide, by decide, by simpa using he⟩,
      fun s i hs hi => by
        obtain rfl : s = 0 := by omega
        obtain rfl : i = 0 := by
          have : i < 1 := hi
          omega
        simp⟩
    0 0 (by decide) (by decide)

end PiBridge

namespace PiBridge

/-! ## In-order single-fragment delivery traces (for the counterexamples) -/

theorem cex_step (k : Nat) (seen : List (String × String × Nat))
    (hnot : ("s", "rpc_event", k) ∉ seen) :
    handle_rpc_envelope "c" (cexEnv k) (inorderState "c" "s" "rpc_event" k seen) =
      (inorderState "c" "s" "rpc_event" (k + 1)
        (prune_rpc_seen "s" "rpc_event" (k + 1) (("s", "rpc_event", k) :: seen)),
      [(k, [])]) := by
  have hcore := handle_scEnv_eq_core "c" "s" "rpc_event" cexFc cexFp k 0
    (inorderState "c" "s" "rpc_event" k seen) (by decide) (by decide) le_rfl
    Nat.zero_lt_one rfl rfl rfl
  have henv : cexEnv k = scEnv "s" "rpc_event" cexFc cexFp k 0 := rfl
  rw [henv, hcore]
  show handle_rpc_core "s" "rpc_event" k 0 1 []
    (inorderState "c" "s" "rpc_event" k seen) = _
  have hnot' : ("s", "rpc_event", k) ∉
      (inorderState "c" "s" "rpc_event" k seen).rpc_seen := hnot
  simp only [handle_rpc_core]
  rw [if_neg hnot']
  simp [inorderState, stepWithEntry, drainPending, drainAux, lookupSeq, eraseSeq,
    collectParts, hasKeySeq, insertSeen, hnot, max_rpc_reorder_window]
  funext s'
  rcases eq_or_ne s' "rpc_event" with rfl | hs'
  · simp
  · simp [Function.update_noteq hs', hs']

end PiBridge

namespace PiBridge

theorem seenDesc_length (sid st : String) (lo : Nat) :
    ∀ n, (seenDesc sid st lo n).length = n := by
  intro n
  induction n with
  | zero => rfl
  | succ n ih => simp [seenDesc, ih]

theorem mem_seenDesc (sid st : String) (lo : Nat) (x : String × String × Nat) :
    ∀ n, x ∈ seenDesc sid st lo n ↔ ∃ j, lo ≤ j ∧ j < lo + n ∧ x = (sid, st, j) := by
  intro n
  induction n with
  | zero =>
    simp [seenDesc]
    intro j h1 h2
    omega
  | succ n ih =>
    simp only [seenDesc, List.mem_cons, ih]
    constructor
    · rintro (rfl | ⟨j, hj1, hj2, rfl⟩)
      · exact ⟨lo + n, by omega, by omega, rfl⟩
      · exact ⟨j, hj1, by omega, rfl⟩
    · rintro ⟨j, hj1, hj2, rfl⟩
      by_cases hje : j = lo + n
      · subst hje; exact Or.inl rfl
      · exact Or.inr ⟨j, hj1, by omega, rfl⟩

theorem seenDesc_filter (sid st : String) (c : Nat) :
    ∀ n, (seenDesc sid st 0 n).filter
        (fun key => ¬(key.1 = sid ∧ key.2.1 = st ∧ key.2.2 < c)) =
      seenDesc sid st c (n - c) := by
  intro n
  induction n with
  | zero => simp [seenDesc]
  | succ n ih =>
    show ((sid, st, 0 + n) :: seenDesc sid st 0 n).filter _ = _
    by_cases hc : n < c
    · rw [List.filter_cons, if_neg (by simp; omega)]
      rw [ih]
      have h1 : n - c = 0 := by omega
      have h2 : n + 1 - c = 0 := by omega
      rw [h1, h2]
    · rw [List.filter_cons, if_pos (by simp; omega)]
      rw [ih]
      have h1 : n + 1 - c = (n - c) + 1 := by omega
      rw [h1]
      show _ = (sid, st, c + (n - c)) :: seenDesc sid st c (n - c)
      have h2 : c + (n - c) = 0 + n := by omega
      rw [h2]

theorem cex_prune (n : Nat) (hn : n + 1 ≤ 2 * max_rpc_reorder_window) :
    prune_rpc_seen "s" "rpc_event" (n + 1)
      (("s", "rpc_event", n) :: inorderSeen "s" "rpc_event" n) =
    inorderSeen "s" "rpc_event" (n + 1) := by
  have hn' : n < 2 * max_rpc_reorder_window := by omega
  have hcons : ("s", "rpc_event", n) :: inorderSeen "s" "rpc_event" n =
      seenDesc "s" "rpc_event" 0 (n + 1) := by
    show _ = (("s", "rpc_event", 0 + n) :: seenDesc "s" "rpc_event" 0 n)
    rw [inorderSeen, if_pos hn']
    simp
  rw [hcons]
  by_cases hb : n + 1 < 2 * max_rpc_reorder_window
  · rw [prune_noop (by rw [seenDesc_length]; exact hb)]
    rw [inorderSeen, if_pos hb]
  · have hw : max_rpc_reorder_window = 4096 := rfl
    have heq : n + 1 = 2 * max_rpc_reorder_window := by omega
    unfold prune_rpc_seen
    rw [if_neg (by rw [seenDesc_length]; omega), if_neg (by omega)]
    rw [seenDesc_filter]
    rw [inorderSeen, if_neg hb]
    have h2 : n + 1 - max_rpc_reorder_window = max_rpc_reorder_window := by omega
    rw [h2, h2]

theorem processAll_append (cid : String) (L1 L2 : List Envelope) (s : RpcState) :
    processAll cid (L1 ++ L2) s =
      ((processAll cid L2 (processAll cid L1 s).1).1,
        (processAll cid L1 s).2 ++ (processAll cid L2 (processAll cid L1 s).1).2) := by
  show (L1 ++ L2).foldl _ (s, []) = _
  rw [List.foldl_append]
  have hpair : (L1.foldl (fun acc e =>
      let step := handle_rpc_envelope cid e acc.1
      (step.1, acc.2 ++ step.2)) (s, [])) =
      ((processAll cid L1 s).1, (processAll cid L1 s).2) := rfl
  rw [hpair, processAll_acc]

theorem init_eq_inorder :
    initRpcState "c" "s" = inorderState "c" "s" "rpc_event" 0 [] := by
  unfold initRpcState reset_rpc_session_state inorderState
  congr 1
  funext s'
  by_cases hs' : s' = "rpc_event" <;> simp [hs']

theorem cex_trace :
    ∀ n, n ≤ 2 * max_rpc_reorder_window →
      processAll "c" ((List.range n).map cexEnv) (initRpcState "c" "s") =
        (inorderState "c" "s" "rpc_event" n (inorderSeen "s" "rpc_event" n),
          (List.range n).map fun k => (k, ([] : Bytes))) := by
  intro n
  induction n with
  | zero =>
    intro _
    have hseen0 : inorderSeen "s" "rpc_event" 0 = [] := by
      rw [inorderSeen, if_pos (by decide)]
      rfl
    rw [hseen0]
    simp only [List.range_zero, List.map_nil]
    show (initRpcState "c" "s", ([] : List (Nat × Bytes))) = _
    rw [init_eq_inorder]
  | succ n ih =>
    intro hn
    have hnot : ("s", "rpc_event", n) ∉ inorderSeen "s" "rpc_event" n := by
      rw [inorderSeen, if_pos (by omega)]
      rw [mem_seenDesc]
      rintro ⟨j, hj1, hj2, hj3⟩
      have : n = j := by
        have := congrArg (fun t : String × String × Nat => t.2.2) hj3
        simpa using this
      omega
    rw [List.range_succ, List.map_append, processAll_append, ih (by omega)]
    simp only [List.map_cons, List.map_nil]
    have hsingle : processAll "c" [cexEnv n]
        (inorderState "c" "s" "rpc_event" n (inorderSeen "s" "rpc_event" n)) =
        ((handle_rpc_envelope "c" (cexEnv n)
            (inorderState "c" "s" "rpc_event" n (inorderSeen "s" "rpc_event" n))).1,
          (handle_rpc_envelope "c" (cexEnv n)
            (inorderState "c" "s" "rpc_event" n (inorderSeen "s" "rpc_event" n))).2) := by
      rw [processAll_cons]
      simp [processAll]
    rw [hsingle, cex_step n (inorderSeen "s" "rpc_event" n) hnot]
    rw [cex_prune n hn]
    simp

end PiBridge

namespace PiBridge

theorem cex_window_drop :
    handle_rpc_envelope "c" (cexEnv 4097) (inorderState "c" "s" "rpc_event" 0 []) =
      (inorderState "c" "s" "rpc_event" 0 [], []) := by
  have hcore := handle_scEnv_eq_core "c" "s" "rpc_event" cexFc cexFp 4097 0
    (inorderState "c" "s" "rpc_event" 0 []) (by decide) (by decide) le_rfl
    Nat.zero_lt_one rfl rfl rfl
  have henv : cexEnv 4097 = scEnv "s" "rpc_event" cexFc cexFp 4097 0 := rfl
  rw [henv, hcore]
  show handle_rpc_core "s" "rpc_event" 4097 0 1 []
    (inorderState "c" "s" "rpc_event" 0 []) = _
  simp only [handle_rpc_core]
  rw [if_neg (show ("s", "rpc_event", (4097 : Nat)) ∉
    (inorderState "c" "s" "rpc_event" 0 []).rpc_seen by simp [inorderState])]
  rw [if_neg (show ¬ (4097 <
    (inorderState "c" "s" "rpc_event" 0 []).rpc_in_expected_seq "rpc_event") by
      norm_num [inorderState])]
  rw [if_pos (show max_rpc_reorder_window < 4097 -
    (inorderState "c" "s" "rpc_event" 0 []).rpc_in_expected_seq "rpc_event" by
      norm_num [inorderState]
      decide)]

/-- Counterexample to claim C1 as stated: with `N = 4098` single-fragment
frames, an arrival order in which the envelope for sequence 4097 arrives
first (and only once) loses it to the reorder-window check — only
`0..4096` are ever delivered, so delivery of every sequence fails for
`N` beyond the window. -/
theorem C1_counterexample : ¬ ExactlyOnceInOrderClaim := by
  intro h
  have hcomplete : completeArrival "s" "rpc_event" cexFc cexFp 4098 cexC1Order := by
    constructor
    · intro e he
      rcases List.mem_cons.mp he with rfl | he
      · exact ⟨4097, 0, by decide, Nat.zero_lt_one, rfl⟩
      · obtain ⟨k, hk, rfl⟩ := List.mem_map.mp he
        exact ⟨k, 0, by have := List.mem_range.mp hk; omega, Nat.zero_lt_one, rfl⟩
    · intro q i hq hi
      obtain rfl : i = 0 := by
        have : i < 1 := hi
        omega
      by_cases h47 : q = 4097
      · subst h47
        exact List.mem_cons_self _ _
      · refine List.mem_cons_of_mem _ (List.mem_map.mpr ⟨q, ?_, rfl⟩)
        exact List.mem_range.mpr (by omega)
  have happly := h "c" "s" "rpc_event" 4098 cexFc cexFp cexC1Order (by decide)
    (by decide) (fun q _ => le_rfl) hcomplete
  have hactual : (processAll "c" cexC1Order (initRpcState "c" "s")).2 =
      (List.range 4097).map fun k => (k, ([] : Bytes)) := by
    rw [show cexC1Order = cexEnv 4097 :: (List.range 4097).map cexEnv from rfl]
    rw [processAll_cons]
    have hdrop : handle_rpc_envelope "c" (cexEnv 4097) (initRpcState "c" "s") =
        (initRpcState "c" "s", []) := by
      rw [init_eq_inorder]
      exact cex_window_drop
    rw [hdrop]
    show [] ++ (processAll "c" ((List.range 4097).map cexEnv)
      (initRpcState "c" "s")).2 = _
    rw [cex_trace 4097 (by decide)]
    simp
  have hlen := congrArg List.length (happly.symm.trans hactual)
  simp at hlen

theorem cex_stale :
    handle_rpc_envelope "c" (cexEnv 0)
        (inorderState "c" "s" "rpc_event" 8192 (seenDesc "s" "rpc_event" 4096 4096)) =
      ({ inorderState "c" "s" "rpc_event" 8192 (seenDesc "s" "rpc_event" 4096 4096) with
          rpc_seen := ("s", "rpc_event", 0) :: seenDesc "s" "rpc_event" 4096 4096 },
        []) := by
  have hcore := handle_scEnv_eq_core "c" "s" "rpc_event" cexFc cexFp 0 0
    (inorderState "c" "s" "rpc_event" 8192 (seenDesc "s" "rpc_event" 4096 4096))
    (by decide) (by decide) le_rfl Nat.zero_lt_one rfl rfl rfl
  have henv : cexEnv 0 = scEnv "s" "rpc_event" cexFc cexFp 0 0 := rfl
  rw [henv, hcore]
  show handle_rpc_core "s" "rpc_event" 0 0 1 []
    (inorderState "c" "s" "rpc_event" 8192 (seenDesc "s" "rpc_event" 4096 4096)) = _
  have hnot : ("s", "rpc_event", (0 : Nat)) ∉ seenDesc "s" "rpc_event" 4096 4096 := by
    rw [mem_seenDesc]
    rintro ⟨j, hj1, hj2, hj3⟩
    have : 0 = j := by
      have := congrArg (fun t : String × String × Nat => t.2.2) hj3
      simpa using this
    omega
  have hnot' : ("s", "rpc_event", (0 : Nat)) ∉
      (inorderState "c" "s" "rpc_event" 8192
        (seenDesc "s" "rpc_event" 4096 4096)).rpc_seen := hnot
  simp only [handle_rpc_core]
  rw [if_neg hnot']
  rw [if_pos (show 0 < (inorderState "c" "s" "rpc_event" 8192
    (seenDesc "s" "rpc_event" 4096 4096)).rpc_in_expected_seq "rpc_event" by
      norm_num [inorderState])]
  show ({ inorderState "c" "s" "rpc_event" 8192 (seenDesc "s" "rpc_event" 4096 4096) with
      rpc_seen := insertSeen ("s", "rpc_event", 0)
        (seenDesc "s" "rpc_event" 4096 4096) }, ([] : List (Nat × Bytes))) = _
  rw [insertSeen, if_neg hnot]

/-- Counterexample to claim C2 as stated, on a reachable state: after 8192
in-order deliveries the prune inside `handle_rpc_envelope` has evicted
`(sid, stream, 0)` from `rpc_seen`; a then-received stale duplicate of
sequence 0 re-adds the triple to `rpc_seen` on mere receipt, with no
delivery in that call. -/
theorem C2_counterexample : ¬ SeenOnlyOnDeliveryClaim := by
  intro h
  have hS : (processAll "c" cexC2Trace (initRpcState "c" "s")).1 =
      inorderState "c" "s" "rpc_event" 8192 (seenDesc "s" "rpc_event" 4096 4096) := by
    rw [show cexC2Trace = (List.range 8192).map cexEnv from rfl,
      cex_trace 8192 (by decide)]
    show inorderState "c" "s" "rpc_event" 8192 (inorderSeen "s" "rpc_event" 8192) = _
    rw [inorderSeen, if_neg (by decide)]
    rfl
  have hmem : ("s", "rpc_event", (0 : Nat)) ∈
      (handle_rpc_envelope "c" (cexEnv 0)
        (processAll "c" cexC2Trace (initRpcState "c" "s")).1).1.rpc_seen := by
    rw [hS, cex_stale]
    exact List.mem_cons_self _ _
  have hnotmem : ("s", "rpc_event", (0 : Nat)) ∉
      (processAll "c" cexC2Trace (initRpcState "c" "s")).1.rpc_seen := by
    rw [hS]
    show ("s", "rpc_event", (0 : Nat)) ∉ seenDesc "s" "rpc_event" 4096 4096
    rw [mem_seenDesc]
    rintro ⟨j, hj1, hj2, hj3⟩
    have : 0 = j := by
      have := congrArg (fun t : String × String × Nat => t.2.2) hj3
      simpa using this
    omega
  obtain ⟨b, hb⟩ := h "c" "s" cexC2Trace (cexEnv 0) ("s", "rpc_event", 0) hmem hnotmem
  rw [hS, cex_stale] at hb
  simp at hb

end PiBridge

namespace PiBridge

theorem mem_of_mem_prune {session_id stream : String} {c : Nat}
    {l : List (String × String × Nat)} {x : String × String × Nat}
    (h : x ∈ prune_rpc_seen session_id stream c l) : x ∈ l := by
  unfold prune_rpc_seen at h
  by_cases h1 : l.length < max_rpc_reorder_window * 2
  · rwa [if_pos h1] at h
  · rw [if_neg h1] at h
    by_cases h2 : c ≤ max_rpc_reorder_window
    · rwa [if_pos h2] at h
    · rw [if_neg h2] at h
      exact (List.mem_filter.mp h).1

theorem stepWithEntry_seen_additions (session_id stream : String)
    (seq frag_index frag_count : Nat) (frag_payload : Bytes) (entry : FragEntry)
    (s : RpcState) (key : String × String × Nat)
    (hmem : key ∈ (stepWithEntry session_id stream seq frag_index frag_count
      frag_payload entry s).1.rpc_seen) :
    key ∈ s.rpc_seen ∨
      ∃ b, (key.2.2, b) ∈ (stepWithEntry session_id stream seq frag_index frag_count
        frag_payload entry s).2 := by
  by_cases hfull : (entry.parts ++ [(frag_index, frag_payload)]).length < frag_count
  · simp only [stepWithEntry] at hmem
    rw [if_pos hfull] at hmem
    exact Or.inl hmem
  · cases hcol : collectParts (entry.parts ++ [(frag_index, frag_payload)]) frag_count with
    | none =>
      simp only [stepWithEntry, hcol] at hmem
      rw [if_neg hfull] at hmem
      exact Or.inl hmem
    | some assembled =>
      simp only [stepWithEntry, hcol] at hmem ⊢
      rw [if_neg hfull] at hmem ⊢
      have h1 := mem_of_mem_prune hmem
      rcases (mem_foldl_insertSeen (fun r => (session_id, stream, r.1)) _ _ _).mp h1 with
        hx | ⟨r, hr, rfl⟩
      · exact Or.inl hx
      · refine Or.inr ⟨r.2, ?_⟩
        simpa using hr

theorem core_seen_additions (session_id stream : String)
    (seq frag_index frag_count : Nat) (frag_payload : Bytes) (s : RpcState)
    (key : String × String × Nat)
    (hmem : key ∈ (handle_rpc_core session_id stream seq frag_index frag_count
      frag_payload s).1.rpc_seen) :
    key ∈ s.rpc_seen ∨
      (∃ b, (key.2.2, b) ∈ (handle_rpc_core session_id stream seq frag_index frag_count
        frag_payload s).2) ∨
      (key = (session_id, stream, seq) ∧ seq < s.rpc_in_expected_seq stream) := by
  simp only [handle_rpc_core] at hmem ⊢
  by_cases hdup : (session_id, stream, seq) ∈ s.rpc_seen
  · rw [if_pos hdup] at hmem
    exact Or.inl hmem
  · rw [if_neg hdup] at hmem ⊢
    by_cases hstale : seq < s.rpc_in_expected_seq stream
    · rw [if_pos hstale] at hmem ⊢
      rcases mem_insertSeen.mp hmem with rfl | hx
      · exact Or.inr (Or.inr ⟨rfl, hstale⟩)
      · exact Or.inl hx
    · rw [if_neg hstale] at hmem ⊢
      by_cases hwin : max_rpc_reorder_window < seq - s.rpc_in_expected_seq stream
      · rw [if_pos hwin] at hmem
        exact Or.inl hmem
      · rw [if_neg hwin] at hmem ⊢
        cases hent : s.rpc_in_fragments (stream, seq) with
        | none =>
          simp only [hent] at hmem ⊢
          rcases stepWithEntry_seen_additions session_id stream seq frag_index
              frag_count frag_payload ⟨frag_count, []⟩ s key hmem with hx | hb
          · exact Or.inl hx
          · exact Or.inr (Or.inl hb)
        | some entry =>
          simp only [hent] at hmem ⊢
          by_cases hfcm : entry.frag_count ≠ frag_count
          · rw [if_pos hfcm] at hmem
            exact Or.inl hmem
          · rw [if_neg hfcm] at hmem ⊢
            by_cases hdupf : frag_index ∈ entry.parts.map Prod.fst
            · rw [if_pos hdupf] at hmem
              exact Or.inl hmem
            · rw [if_neg hdupf] at hmem ⊢
              rcases stepWithEntry_seen_additions session_id stream seq frag_index
                  frag_count frag_payload entry s key hmem with hx | hb
              · exact Or.inl hx
              · exact Or.inr (Or.inl hb)

/-- Claim C2 (amended): every key in `rpc_seen` after a call to
`handle_rpc_envelope` was already in `rpc_seen`, or its sequence was
delivered during that call, or the envelope itself carried that exact
`(session, stream, seq)` triple with `seq` below the stream's expected
sequence — the stale-duplicate branch, which records the key on mere
receipt with no delivery. -/
theorem C2_seen_amended (cid : String) (env : Envelope) (s : RpcState)
    (key : String × String × Nat)
    (hmem : key ∈ (handle_rpc_envelope cid env s).1.rpc_seen) :
    key ∈ s.rpc_seen ∨
      (∃ b, (key.2.2, b) ∈ (handle_rpc_envelope cid env s).2) ∨
      (∃ ses stm sq fi fcnt pl,
        parse_rpc_envelope env = some (ses, stm, sq, fi, fcnt, pl) ∧
        key = (ses, stm, sq) ∧ sq < s.rpc_in_expected_seq stm) := by
  rcases hp : parse_rpc_envelope env with _ | ⟨ses, stm, sq, fi, fcnt, pl⟩
  · simp only [handle_rpc_envelope, hp] at hmem
    exact Or.inl hmem
  · simp only [handle_rpc_envelope, hp] at hmem ⊢
    by_cases hg1 : s.rpc_call_id ≠ some cid ∨ s.rpc_proc_live = false
    · rw [if_pos hg1] at hmem
      exact Or.inl hmem
    · rw [if_neg hg1] at hmem ⊢
      by_cases hg2 : optTruthy s.rpc_session_id = true ∧ s.rpc_session_id ≠ some ses
      · rw [if_pos hg2] at hmem
        exact Or.inl hmem
      · rw [if_neg hg2] at hmem ⊢
        by_cases hsn : s.rpc_session_id = none
        · rw [if_pos hsn] at hmem ⊢
          rcases core_seen_additions ses stm sq fi fcnt pl
              (reset_rpc_session_state ses s) key hmem with hx | hb | ⟨hk, hlt⟩
          · exact absurd hx (by simp [reset_rpc_session_state])
          · exact Or.inr (Or.inl hb)
          · exact absurd hlt (by simp [reset_rpc_session_state])
        · rw [if_neg hsn] at hmem ⊢
          rcases core_seen_additions ses stm sq fi fcnt pl s key hmem with
            hx | hb | ⟨hk, hlt⟩
          · exact Or.inl hx
          · exact Or.inr (Or.inl hb)
          · exact Or.inr (Or.inr ⟨ses, stm, sq, fi, fcnt, pl, rfl, hk, hlt⟩)

theorem C2_seen_amended_witness :
    (("s", "rpc_event", 0) : String × String × Nat) ∈
      (handle_rpc_envelope "c" (cexEnv 0) (initRpcState "c" "s")).1.rpc_seen ∧
    ((("s", "rpc_event", 0) : String × String × Nat) ∈ (initRpcState "c" "s").rpc_seen ∨
      (∃ b, ((("s", "rpc_event", 0) : String × String × Nat).2.2, b) ∈
        (handle_rpc_envelope "c" (cexEnv 0) (initRpcState "c" "s")).2) ∨
      (∃ ses stm sq fi fcnt pl,
        parse_rpc_envelope (cexEnv 0) = some (ses, stm, sq, fi, fcnt, pl) ∧
        (("s", "rpc_event", 0) : String × String × Nat) = (ses, stm, sq) ∧
        sq < (initRpcState "c" "s").rpc_in_expected_seq stm)) :=
  ⟨by decide, C2_seen_amended "c" (cexEnv 0) (initRpcState "c" "s") ("s", "rpc_event", 0)
    (by decide)⟩

end PiBridge
